import Mathlib

/-!
Verification development for the IKobo repository.

The Python sources (src/kobo.py, src/web.py, src/c_bookmarks.py,
src/s_bookmarks.py) are shallowly embedded below.  Strings are modelled as
character lists (Python indexing and slicing is by characters), fallible
code (assertions, exceptions) is modelled with Option, and the two
module-level configuration constants VOLUME and os.name are passed as
parameters (volume : List Char, posix : Bool).
-/

namespace IKobo

/-! ### Character-list helpers shared by the regex models.

Python regular expressions in this repository are all anchored literal
patterns with greedy or lazy wildcard groups; each one is modelled by a
direct recursive function whose behaviour is derived from the re module
semantics: a dot never matches a newline, and a dollar anchor matches at
the end of the string or just before one trailing newline. -/

/-- Drop an expected literal pattern from the front of a character list;
none when the input does not start with it. -/
def dropPre : List Char → List Char → Option (List Char)
  | [], l => some l
  | _ :: _, [] => none
  | p :: ps, c :: cs => if c = p then dropPre ps cs else none

/-- Whether a character list contains the two-character run bang-bang. -/
def hasBB : List Char → Bool
  | [] => false
  | [_] => false
  | a :: b :: t => (a = '!' && b = '!') || hasBB (b :: t)

/-- Split a character list at the last occurrence of the two-character
run bang-bang: some (a, b) with input = a plus the run plus b, and no
occurrence of the run after position a.length.  This is the semantics of
the greedy group followed by the literal run in the ContentID regex of
src/kobo.py line 136. -/
def splitLastBB : List Char → Option (List Char × List Char)
  | [] => none
  | c :: rest =>
    match splitLastBB rest with
    | some (a, b) => some (c :: a, b)
    | none =>
      if c = '!' ∧ rest.head? = some '!' then some ([], rest.tail) else none

/-- Split a character list at the first occurrence of the hash
character; the second component is none when no hash occurs.  This is
the semantics of the lazy group followed by the optional hash group in
the ContentID regex of src/kobo.py line 136. -/
def splitFirstHash : List Char → List Char × Option (List Char)
  | [] => ([], none)
  | c :: t =>
    if c = '#' then ([], some t)
    else
      let r := splitFirstHash t
      (c :: r.1, r.2)

/-- Python str.split on the slash character: always at least one
segment, empty segments preserved. -/
def pySplitSlash : List Char → List (List Char)
  | [] => [[]]
  | c :: t =>
    if c = '/' then [] :: pySplitSlash t
    else
      match pySplitSlash t with
      | [] => [[c]]
      | s :: ss => (c :: s) :: ss

/-! ### Models of os.path.join (posixpath.join and ntpath.join), used by
_format_path in src/kobo.py lines 422-430. -/

/-- Model of posixpath.join for two arguments. -/
def posixJoin (a b : List Char) : List Char :=
  if b.take 1 = ['/'] then b
  else if a = [] ∨ a.getLast? = some '/' then a ++ b
  else a ++ '/' :: b

/-- Replace every forward slash with a backslash (ntpath normalisation
used while locating separators). -/
def toBack (p : List Char) : List Char :=
  p.map (fun c => if c = '/' then '\\' else c)

/-- Index of the first backslash at or after position i. -/
def findSepFrom (l : List Char) (i : Nat) : Option Nat :=
  ((l.drop i).findIdx? (fun c => c = '\\')).map (fun j => j + i)

/-- Whether a character is one of the two Windows path separators. -/
def ntSep (c : Char) : Bool := c = '\\' || c = '/'

/-- Model of ntpath.splitdrive. -/
def ntSplitdrive (p : List Char) : List Char × List Char :=
  if 2 ≤ p.length then
    let normp := toBack p
    if normp.take 2 = ['\\', '\\'] ∧ (normp.drop 2).take 1 ≠ ['\\'] then
      match findSepFrom normp 2 with
      | none => ([], p)
      | some index =>
        match findSepFrom normp (index + 1) with
        | none => (p, [])
        | some index2 =>
          if index2 = index + 1 then ([], p)
          else (p.take index2, p.drop index2)
    else if (normp.drop 1).take 1 = [':'] then (p.take 2, p.drop 2)
    else ([], p)
  else ([], p)

/-- Body of one step of the ntpath.join accumulation loop, with the next
component already split into its drive pd and path pp. -/
def ntJoinStepCore (rd rp pd pp : List Char) : List Char × List Char :=
  if pp ≠ [] ∧ ntSep (pp.headD ' ') = true then
    (if pd ≠ [] ∨ rd = [] then pd else rd, pp)
  else if pd ≠ [] ∧ pd ≠ rd ∧ pd.map Char.toLower ≠ rd.map Char.toLower then
    (pd, pp)
  else
    ((if pd ≠ [] ∧ pd ≠ rd then pd else rd),
      (if rp ≠ [] ∧ ¬ ntSep (rp.getLastD ' ') = true then rp ++ ['\\'] else rp) ++ pp)

/-- One step of the ntpath.join accumulation loop: given the accumulated
drive and path, absorb the next component. -/
def ntJoinStep (rd rp q : List Char) : List Char × List Char :=
  ntJoinStepCore rd rp (ntSplitdrive q).1 (ntSplitdrive q).2

/-- Model of ntpath.join. -/
def ntJoin (path : List Char) (paths : List (List Char)) : List Char :=
  let s := ntSplitdrive path
  let r := paths.foldl (fun acc q => ntJoinStep acc.1 acc.2 q) (s.1, s.2)
  let rd := r.1
  let rp := r.2
  if rp ≠ [] ∧ ¬ ntSep (rp.headD ' ') = true ∧ rd ≠ [] ∧ rd.getLast? ≠ some ':' then
    rd ++ '\\' :: rp
  else rd ++ rp

/-- Translation of _format_path (src/kobo.py lines 422-430): on posix
the volume root and the relative path are joined directly; otherwise the
captured segment is re-split on the URL separator and rejoined with the
platform join.  VOLUME is a module-level configuration constant in the
source and a parameter here. -/
def formatPath (posix : Bool) (volume rel : List Char) : List Char :=
  if posix then posixJoin volume rel
  else ntJoin volume (pySplitSlash rel)

/-! ### ContentID.parse (src/kobo.py lines 134-146). -/

/-- Result record of ContentID.parse. -/
structure PyContentID where
  file : List Char
  xhtml : List Char
  element_id : Option (List Char)
deriving DecidableEq

/-- The synthetic archive-member reference string of the round-trip
property: the onboard root, the relative path, the bang-bang separator,
the member path, a hash, and the element id. -/
def mkContentId (rel member eid : List Char) : List Char :=
  "/mnt/onboard/".data ++ (rel ++ ('!' :: '!' :: (member ++ ('#' :: eid))))

/-- Translation of ContentID.parse.  The anchored regex is modelled
directly: the dollar anchor also matches just before one trailing
newline and no wildcard group can contain a newline, so a trailing
newline is stripped and any other newline makes the match fail (the
assertion in the source then fires, modelled as none).  The greedy first
group captures up to the last bang-bang run, the lazy second group up to
the first hash after it. -/
def contentIDCore (posix : Bool) (volume : List Char) (core : List Char) :
    Option PyContentID :=
  if '\n' ∈ core then none
  else
    match dropPre "/mnt/onboard/".data core with
    | none => none
    | some t =>
      match splitLastBB t with
      | none => none
      | some (rel, u) =>
        let mh := splitFirstHash u
        some ⟨formatPath posix volume rel, mh.1, mh.2⟩

/-- ContentID.parse proper: strip a single trailing newline (the dollar
anchor may match just before it) and run the anchored match. -/
def contentIDParse (posix : Bool) (volume : List Char) (s : List Char) :
    Option PyContentID :=
  contentIDCore posix volume (if s.getLast? = some '\n' then s.dropLast else s)

/-! ### Lemmas about the regex helpers. -/

theorem dropPre_append (p l : List Char) : dropPre p (p ++ l) = some l := by
  induction p with
  | nil => rfl
  | cons c cs ih => simp [dropPre, ih]

theorem hasBB_cons (c : Char) (l : List Char) :
    hasBB (c :: l) = ((c = '!' && l.head? = some '!') || hasBB l) := by
  cases l with
  | nil => simp [hasBB]
  | cons d t => simp [hasBB]

theorem splitLastBB_eq_none {l : List Char} (h : hasBB l = false) :
    splitLastBB l = none := by
  induction l with
  | nil => rfl
  | cons c rest ih =>
    rw [hasBB_cons, Bool.or_eq_false_iff, Bool.and_eq_false_iff] at h
    rw [splitLastBB, ih h.2, if_neg]
    intro hand
    rcases h.1 with h1 | h1
    · simp [hand.1] at h1
    · simp [hand.2] at h1

theorem splitLastBB_append (a rest : List Char) (h1 : hasBB rest = false)
    (h2 : rest.head? ≠ some '!') :
    splitLastBB (a ++ '!' :: '!' :: rest) = some (a, rest) := by
  induction a with
  | nil =>
    rw [List.nil_append, splitLastBB]
    have hinner : splitLastBB ('!' :: rest) = none := by
      rw [splitLastBB, splitLastBB_eq_none h1, if_neg]
      intro hand
      exact h2 hand.2
    rw [hinner, if_pos ⟨rfl, rfl⟩]
    rfl
  | cons c cs ih =>
    rw [List.cons_append, splitLastBB, ih]

theorem splitFirstHash_append (m i : List Char) (h : '#' ∉ m) :
    splitFirstHash (m ++ '#' :: i) = (m, some i) := by
  induction m with
  | nil => simp [splitFirstHash]
  | cons c cs ih =>
    simp only [List.mem_cons, not_or] at h
    simp [splitFirstHash, Ne.symm h.1, ih h.2]

theorem hasBB_append_hash {m i : List Char} (hm : hasBB m = false)
    (hi : hasBB i = false) : hasBB (m ++ '#' :: i) = false := by
  induction m with
  | nil => simp [hasBB_cons, hi]
  | cons c cs ih =>
    rw [hasBB_cons] at hm
    rw [List.cons_append, hasBB_cons]
    simp only [Bool.or_eq_false_iff, Bool.and_eq_false_iff] at hm ⊢
    refine ⟨?_, ih hm.2⟩
    cases cs with
    | nil => right; simp
    | cons d t => simpa using hm.1

/-- C6 (amended): round-trip of the position-reference parser.  Under
the side conditions forced by the regex semantics (the member path
contains no hash, no bang-bang run and does not start with a bang, the
element id contains no bang-bang run, and no component contains a
newline), parsing the synthetic archive-member reference string recovers
exactly the member path and element id, and a file path equal to the
configured volume root joined with the relative path, on both posix and
non-posix targets. -/
theorem contentIDParse_roundtrip (posix : Bool) (volume rel member eid : List Char)
    (hrel : '\n' ∉ rel) (hm1 : '\n' ∉ member) (hi1 : '\n' ∉ eid)
    (hm2 : hasBB member = false) (hi2 : hasBB eid = false)
    (hm3 : '#' ∉ member) (hm4 : member.head? ≠ some '!') :
    contentIDParse posix volume (mkContentId rel member eid) =
      some ⟨formatPath posix volume rel, member, some eid⟩ := by
  have hpre : '\n' ∉ "/mnt/onboard/".data := by decide
  have hs : '\n' ∉ mkContentId rel member eid := by
    unfold mkContentId
    intro h
    rcases List.mem_append.mp h with h | h
    · exact hpre h
    rcases List.mem_append.mp h with h | h
    · exact hrel h
    rcases List.mem_cons.mp h with h | h
    · exact absurd h (by decide)
    rcases List.mem_cons.mp h with h | h
    · exact absurd h (by decide)
    rcases List.mem_append.mp h with h | h
    · exact hm1 h
    rcases List.mem_cons.mp h with h | h
    · exact absurd h (by decide)
    · exact hi1 h
  have hlast : (mkContentId rel member eid).getLast? ≠ some '\n' := by
    intro h
    exact hs (List.mem_of_mem_getLast? h)
  have hrest1 : hasBB (member ++ '#' :: eid) = false := hasBB_append_hash hm2 hi2
  have hrest2 : (member ++ '#' :: eid).head? ≠ some '!' := by
    cases member with
    | nil => simp
    | cons c cs => simpa using hm4
  unfold contentIDParse
  rw [if_neg hlast]
  unfold contentIDCore
  rw [if_neg hs]
  simp only [mkContentId, dropPre_append, splitLastBB_append _ _ hrest1 hrest2,
    splitFirstHash_append _ _ hm3]

/-- C6 counterexample: the claim quantifies over every triple, but a
member path containing a hash is not recovered: the lazy member group
stops at the first hash, so the member comes back as the part before the
hash and the element id absorbs the rest. -/
theorem contentIDParse_roundtrip_cex :
    contentIDParse true "E:".data (mkContentId "r".data "a#b".data "c".data) =
      some ⟨formatPath true "E:".data "r".data, "a".data, some "b#c".data⟩ ∧
    ("a".data : List Char) ≠ "a#b".data := by
  constructor
  · decide
  · decide

/-- Witness for the amended round-trip theorem at a concrete triple. -/
theorem contentIDParse_roundtrip_witness :
    contentIDParse true "E:".data
        (mkContentId "dir/book.kepub.epub".data "x.xhtml".data "kobo.1.1".data) =
      some ⟨formatPath true "E:".data "dir/book.kepub.epub".data,
        "x.xhtml".data, some "kobo.1.1".data⟩ :=
  contentIDParse_roundtrip true "E:".data "dir/book.kepub.epub".data
    "x.xhtml".data "kobo.1.1".data (by decide) (by decide) (by decide)
    (by decide) (by decide) (by decide) (by decide)

/-! ### volume_id_file and KEPUB.is_kepub (src/kobo.py lines 410-419 and
68-75). -/

/-- Anchored match of the volume-id regex against the (newline-stripped)
identifier: the literal URI root followed by a wildcard group.  On no
match the assertion in the source fires, modelled as none; on a match
the captured segment is converted by _format_path. -/
def volumeIdFileCore (posix : Bool) (volume core : List Char) :
    Option (List Char) :=
  if '\n' ∈ core then none
  else (dropPre "file:///mnt/onboard/".data core).map (formatPath posix volume)

/-- Translation of volume_id_file (src/kobo.py lines 410-419). -/
def volumeIdFile (posix : Bool) (volume s : List Char) : Option (List Char) :=
  volumeIdFileCore posix volume (if s.getLast? = some '\n' then s.dropLast else s)

/-- Semantics of re.search with a pattern made of literals and a dollar
anchor: the pattern matches at the very end or just before one trailing
newline. -/
def reSearchEnd (pat f : List Char) : Bool :=
  pat.isSuffixOf f || (f.getLast? = some '\n' && pat.isSuffixOf f.dropLast)

/-- Translation of KEPUB.is_kepub (src/kobo.py lines 68-75): resolve the
volume identifier to a file path (asserting on a bad identifier) and
search for the kepub suffix pattern. -/
def isKepub (posix : Bool) (volume s : List Char) : Option Bool :=
  (volumeIdFile posix volume s).map (fun f => reSearchEnd ".kepub.epub".data f)

/-! ### Character-membership lemmas for the path joins, used to rule the
newline quirk of the dollar anchor out of resolved file paths. -/

theorem dropPre_eq_some {p : List Char} : ∀ {l t : List Char},
    dropPre p l = some t ↔ l = p ++ t := by
  induction p with
  | nil => intro l t; simp [dropPre]
  | cons c cs ih =>
    intro l t
    cases l with
    | nil => simp [dropPre]
    | cons d ds =>
      simp only [dropPre, List.cons_append, List.cons.injEq]
      by_cases h : d = c
      · subst h
        simp [ih]
      · simp [h]

theorem ntSplitdrive_eq_take_drop (p : List Char) :
    ∃ n, ntSplitdrive p = (p.take n, p.drop n) := by
  unfold ntSplitdrive
  split
  · dsimp only
    split
    · split
      · exact ⟨0, by simp⟩
      · split
        · exact ⟨p.length, by simp⟩
        · split
          · exact ⟨0, by simp⟩
          · exact ⟨_, rfl⟩
    · split
      · exact ⟨2, rfl⟩
      · exact ⟨0, by simp⟩
  · exact ⟨0, by simp⟩

theorem mem_ntSplitdrive {x : Char} {p : List Char}
    (h : x ∈ (ntSplitdrive p).1 ∨ x ∈ (ntSplitdrive p).2) : x ∈ p := by
  obtain ⟨n, hn⟩ := ntSplitdrive_eq_take_drop p
  rw [hn] at h
  rcases h with h | h
  · exact List.take_subset n p h
  · exact List.drop_subset n p h

theorem mem_ntJoinStepCore {x : Char} {rd rp pd pp : List Char}
    (h : x ∈ (ntJoinStepCore rd rp pd pp).1 ∨ x ∈ (ntJoinStepCore rd rp pd pp).2) :
    x ∈ rd ∨ x ∈ rp ∨ x ∈ pd ∨ x ∈ pp ∨ x = '\\' := by
  revert h
  unfold ntJoinStepCore
  split_ifs <;> intro h <;> rcases h with h | h <;>
    simp only [List.mem_append, List.mem_singleton] at h <;> tauto

theorem mem_ntJoinStep {x : Char} {rd rp q : List Char}
    (h : x ∈ (ntJoinStep rd rp q).1 ∨ x ∈ (ntJoinStep rd rp q).2) :
    x ∈ rd ∨ x ∈ rp ∨ x ∈ q ∨ x = '\\' := by
  rcases mem_ntJoinStepCore h with h | h | h | h | h
  · exact Or.inl h
  · exact Or.inr (Or.inl h)
  · exact Or.inr (Or.inr (Or.inl (mem_ntSplitdrive (Or.inl h))))
  · exact Or.inr (Or.inr (Or.inl (mem_ntSplitdrive (Or.inr h))))
  · exact Or.inr (Or.inr (Or.inr h))

theorem mem_ntJoin_foldl {x : Char} :
    ∀ (paths : List (List Char)) (acc : List Char × List Char),
    x ∉ acc.1 → x ∉ acc.2 → (∀ q ∈ paths, x ∉ q) → x ≠ '\\' →
    x ∉ (paths.foldl (fun a q => ntJoinStep a.1 a.2 q) acc).1 ∧
    x ∉ (paths.foldl (fun a q => ntJoinStep a.1 a.2 q) acc).2 := by
  intro paths
  induction paths with
  | nil => intro acc h1 h2 _ _; exact ⟨h1, h2⟩
  | cons q rest ih =>
    intro acc h1 h2 h3 h4
    simp only [List.foldl_cons]
    refine ih (ntJoinStep acc.1 acc.2 q) ?_ ?_ (fun r hr => h3 r (List.mem_cons_of_mem _ hr)) h4
    · intro hmem
      rcases mem_ntJoinStep (Or.inl hmem) with h | h | h | h
      · exact h1 h
      · exact h2 h
      · exact h3 q (List.mem_cons_self _ _) h
      · exact h4 h
    · intro hmem
      rcases mem_ntJoinStep (Or.inr hmem) with h | h | h | h
      · exact h1 h
      · exact h2 h
      · exact h3 q (List.mem_cons_self _ _) h
      · exact h4 h

theorem mem_ntJoin {x : Char} {path : List Char} {paths : List (List Char)}
    (h1 : x ∉ path) (h2 : ∀ q ∈ paths, x ∉ q) (h3 : x ≠ '\\') :
    x ∉ ntJoin path paths := by
  simp only [ntJoin]
  have hacc1 : x ∉ (ntSplitdrive path).1 := fun h => h1 (mem_ntSplitdrive (Or.inl h))
  have hacc2 : x ∉ (ntSplitdrive path).2 := fun h => h1 (mem_ntSplitdrive (Or.inr h))
  obtain ⟨hf1, hf2⟩ := mem_ntJoin_foldl paths _ hacc1 hacc2 h2 h3
  split_ifs with h4
  · intro hmem
    rcases List.mem_append.mp hmem with h | h
    · exact hf1 h
    · rcases List.mem_cons.mp h with h | h
      · exact h3 h
      · exact hf2 h
  · intro hmem
    rcases List.mem_append.mp hmem with h | h
    · exact hf1 h
    · exact hf2 h

theorem mem_pySplitSlash {x : Char} : ∀ {l q : List Char},
    q ∈ pySplitSlash l → x ∈ q → x ∈ l := by
  intro l
  induction l with
  | nil =>
    intro q hq hx
    simp only [pySplitSlash, List.mem_singleton] at hq
    subst hq
    simp at hx
  | cons c t ih =>
    intro q hq hx
    simp only [pySplitSlash] at hq
    split_ifs at hq with h
    · rcases List.mem_cons.mp hq with h1 | h1
      · subst h1; simp at hx
      · exact List.mem_cons_of_mem _ (ih h1 hx)
    · cases hps : pySplitSlash t with
      | nil =>
        rw [hps] at hq
        simp only [List.mem_singleton] at hq
        subst hq
        simp only [List.mem_singleton] at hx
        subst hx
        exact List.mem_cons_self _ _
      | cons s ss =>
        rw [hps] at hq
        rcases List.mem_cons.mp hq with h1 | h1
        · subst h1
          rcases List.mem_cons.mp hx with h2 | h2
          · subst h2; exact List.mem_cons_self _ _
          · exact List.mem_cons_of_mem _
              (ih (by rw [hps]; exact List.mem_cons_self _ _) h2)
        · exact List.mem_cons_of_mem _
            (ih (by rw [hps]; exact List.mem_cons_of_mem _ h1) hx)

theorem mem_posixJoin {x : Char} {a b : List Char} (h : x ∈ posixJoin a b) :
    x ∈ a ∨ x ∈ b ∨ x = '/' := by
  simp only [posixJoin] at h
  split_ifs at h with h1 h2
  · exact Or.inr (Or.inl h)
  · rcases List.mem_append.mp h with h | h
    · exact Or.inl h
    · exact Or.inr (Or.inl h)
  · rcases List.mem_append.mp h with h | h
    · exact Or.inl h
    · rcases List.mem_cons.mp h with h | h
      · exact Or.inr (Or.inr h)
      · exact Or.inr (Or.inl h)

theorem formatPath_not_mem {x : Char} {posix : Bool} {volume rel : List Char}
    (h1 : x ∉ volume) (h2 : x ∉ rel) (h3 : x ≠ '/') (h4 : x ≠ '\\') :
    x ∉ formatPath posix volume rel := by
  unfold formatPath
  split_ifs with hp
  · intro hmem
    rcases mem_posixJoin hmem with h | h | h
    · exact h1 h
    · exact h2 h
    · exact h3 h
  · exact mem_ntJoin h1 (fun q hq hx => h2 (mem_pySplitSlash hq hx)) h4

/-- C10: the container-support check.  An identifier that does not begin
with the onboard URI root makes the assertion in volume_id_file fire
(modelled: none) instead of returning false; when a boolean comes back
the identifier begins with the root and the boolean is true exactly when
the resolved file path ends in the kepub suffix. -/
theorem isKepub_spec (posix : Bool) (volume s : List Char)
    (hv : '\n' ∉ volume) :
    (¬ "file:///mnt/onboard/".data <+: s → isKepub posix volume s = none) ∧
    (∀ b, isKepub posix volume s = some b →
      "file:///mnt/onboard/".data <+: s ∧
      ∃ f, volumeIdFile posix volume s = some f ∧
        (b = true ↔ ".kepub.epub".data <:+ f)) := by
  have hcs : (if s.getLast? = some '\n' then s.dropLast else s) <+: s := by
    split_ifs
    · exact List.dropLast_prefix s
    · exact List.prefix_refl s
  constructor
  · intro hnp
    show (volumeIdFileCore posix volume
        (if s.getLast? = some '\n' then s.dropLast else s)).map
        (fun f => reSearchEnd ".kepub.epub".data f) = none
    unfold volumeIdFileCore
    by_cases hnl : '\n' ∈ (if s.getLast? = some '\n' then s.dropLast else s)
    · rw [if_pos hnl]
      rfl
    · rw [if_neg hnl]
      cases hdp : dropPre "file:///mnt/onboard/".data
          (if s.getLast? = some '\n' then s.dropLast else s) with
      | none => rfl
      | some t =>
        exfalso
        exact hnp (List.IsPrefix.trans ⟨t, (dropPre_eq_some.mp hdp).symm⟩ hcs)
  · intro b hb
    have hb' : (volumeIdFileCore posix volume
        (if s.getLast? = some '\n' then s.dropLast else s)).map
        (fun f => reSearchEnd ".kepub.epub".data f) = some b := hb
    unfold volumeIdFileCore at hb'
    by_cases hnl : '\n' ∈ (if s.getLast? = some '\n' then s.dropLast else s)
    · rw [if_pos hnl] at hb'
      exact absurd hb' (by simp)
    · rw [if_neg hnl] at hb'
      cases hdp : dropPre "file:///mnt/onboard/".data
          (if s.getLast? = some '\n' then s.dropLast else s) with
      | none =>
        rw [hdp] at hb'
        exact absurd hb' (by simp)
      | some rel =>
        rw [hdp] at hb'
        simp only [Option.map_some', Option.some.injEq] at hb'
        have hcore := dropPre_eq_some.mp hdp
        constructor
        · exact List.IsPrefix.trans ⟨rel, hcore.symm⟩ hcs
        · refine ⟨formatPath posix volume rel, ?_, ?_⟩
          · show volumeIdFileCore posix volume
                (if s.getLast? = some '\n' then s.dropLast else s) = _
            unfold volumeIdFileCore
            rw [if_neg hnl, hdp]
            rfl
          · have hrelnl : '\n' ∉ rel := by
              rw [hcore] at hnl
              exact fun hm => hnl (List.mem_append_right _ hm)
            have hfnl : '\n' ∉ formatPath posix volume rel :=
              formatPath_not_mem hv hrelnl (by decide) (by decide)
            have hlast : (formatPath posix volume rel).getLast? ≠ some '\n' := by
              intro h
              exact hfnl (List.mem_of_mem_getLast? h)
            subst hb'
            unfold reSearchEnd
            rw [Bool.or_eq_true, Bool.and_eq_true]
            constructor
            · intro h
              rcases h with h | ⟨h, _⟩
              · exact List.isSuffixOf_iff_suffix.mp h
              · exact absurd (by simpa using h) hlast
            · intro h
              exact Or.inl (List.isSuffixOf_iff_suffix.mpr h)

/-- Witness for the container-support theorem: a bad identifier asserts,
a good one resolves and classifies. -/
theorem isKepub_spec_witness :
    isKepub true "E:".data "abc".data = none ∧
    ("file:///mnt/onboard/".data <+: "file:///mnt/onboard/b.kepub.epub".data ∧
      ∃ f, volumeIdFile true "E:".data "file:///mnt/onboard/b.kepub.epub".data = some f ∧
        (true = true ↔ ".kepub.epub".data <:+ f)) :=
  ⟨(isKepub_spec true "E:".data "abc".data (by decide)).1 (by decide),
   (isKepub_spec true "E:".data "file:///mnt/onboard/b.kepub.epub".data
      (by decide)).2 true (by decide)⟩

/-! ### Timestamp normalization in BookmarkTable.select_all
(src/kobo.py lines 333-363).

A stored timestamp string is modelled by its parsed fields: strptime is
a library call, and both formats in the source are plain field patterns
(year, month, day, hour, minute, second, optional fractional part,
optional UTC offset).  The instant denoted by an aware datetime is its
proleptic-Gregorian second count minus its offset. -/

/-- Python datetime: wall-clock fields plus an optional fixed utcoffset
in seconds (none models a naive datetime). -/
structure PyDatetime where
  year : Int
  month : Int
  day : Int
  hour : Int
  minute : Int
  second : Int
  microsecond : Int
  tzOffSeconds : Option Int
deriving DecidableEq

/-- Fields of a DateCreated string, format with fractional seconds and
no offset (naive). -/
structure CreatedStamp where
  y : Int
  mo : Int
  d : Int
  h : Int
  mi : Int
  s : Int
  us : Int
deriving DecidableEq

/-- Fields of a DateModified string, offset-aware format. -/
structure ModifiedStamp where
  y : Int
  mo : Int
  d : Int
  h : Int
  mi : Int
  s : Int
  offSeconds : Int
deriving DecidableEq

/-- strptime with the DateCreated format yields a naive datetime. -/
def strptimeCreated (c : CreatedStamp) : PyDatetime :=
  ⟨c.y, c.mo, c.d, c.h, c.mi, c.s, c.us, none⟩

/-- strptime with the DateModified format yields an aware datetime
carrying the stored offset. -/
def strptimeModified (m : ModifiedStamp) : PyDatetime :=
  ⟨m.y, m.mo, m.d, m.h, m.mi, m.s, 0, some m.offSeconds⟩

/-- datetime.replace with tzinfo=timezone.utc: the wall-clock fields are
kept unchanged and only the offset is overwritten with zero. -/
def replaceTzUtc (dt : PyDatetime) : PyDatetime :=
  { dt with tzOffSeconds := some 0 }

/-- Days from civil date (proleptic Gregorian), standard algorithm. -/
def daysFromCivil (y m d : Int) : Int :=
  let y' := if m ≤ 2 then y - 1 else y
  let era := (if 0 ≤ y' then y' else y' - 399) / 400
  let yoe := y' - era * 400
  let mp := (m + 9) % 12
  let doy := (153 * mp + 2) / 5 + d - 1
  let doe := yoe * 365 + yoe / 4 - yoe / 100 + doy
  era * 146097 + doe - 719468

/-- Wall-clock microseconds of a datetime since the epoch, ignoring the
offset. -/
def wallMicros (dt : PyDatetime) : Int :=
  ((daysFromCivil dt.year dt.month dt.day * 86400 +
    dt.hour * 3600 + dt.minute * 60 + dt.second) * 1000000) + dt.microsecond

/-- Instant denoted by an aware datetime, in microseconds since the
epoch; none for a naive datetime. -/
def instantMicros (dt : PyDatetime) : Option Int :=
  dt.tzOffSeconds.map (fun off => wallMicros dt - off * 1000000)

/-- Instant denoted by a stored DateCreated string: the format is
UTC-naive, so the wall clock read as UTC. -/
def createdStoredInstant (c : CreatedStamp) : Int :=
  wallMicros (strptimeCreated c)

/-- Instant denoted by a stored DateModified string: the wall clock
shifted by the stored offset. -/
def modifiedStoredInstant (m : ModifiedStamp) : Int :=
  wallMicros (strptimeModified m) - m.offSeconds * 1000000

/-- Creation timestamp as returned by BookmarkTable.select_all
(src/kobo.py line 357). -/
def selectCreated (c : CreatedStamp) : PyDatetime :=
  replaceTzUtc (strptimeCreated c)

/-- Modification timestamp as returned by BookmarkTable.select_all
(src/kobo.py line 359). -/
def selectModified (m : ModifiedStamp) : PyDatetime :=
  replaceTzUtc (strptimeModified m)

/-- C7 counterexample: a modification timestamp stored with offset
+02:00.  The returned datetime is timezone-aware UTC but denotes a
different instant than the stored string, because replace overwrites
the offset without shifting the wall clock. -/
theorem selectModified_cex :
    instantMicros (selectModified ⟨2024, 1, 1, 12, 0, 0, 7200⟩) =
      some (modifiedStoredInstant ⟨2024, 1, 1, 12, 0, 0, 7200⟩ + 7200 * 1000000) ∧
    modifiedStoredInstant ⟨2024, 1, 1, 12, 0, 0, 7200⟩ + 7200 * 1000000 ≠
      modifiedStoredInstant ⟨2024, 1, 1, 12, 0, 0, 7200⟩ := by
  constructor
  · decide
  · decide

/-- C7 (amended): both returned timestamps are timezone-aware UTC
values.  The creation timestamp always denotes the same instant as the
stored string (which is UTC-naive); the modification timestamp keeps the
stored wall-clock fields and denotes the same instant as the stored
string exactly when the stored offset is zero. -/
theorem wallMicros_replaceTzUtc (dt : PyDatetime) :
    wallMicros (replaceTzUtc dt) = wallMicros dt := rfl

theorem replaceTzUtc_tz (dt : PyDatetime) :
    (replaceTzUtc dt).tzOffSeconds = some 0 := rfl

theorem select_timestamps_utc :
    (∀ c : CreatedStamp,
      (selectCreated c).tzOffSeconds = some 0 ∧
      instantMicros (selectCreated c) = some (createdStoredInstant c)) ∧
    (∀ m : ModifiedStamp,
      (selectModified m).tzOffSeconds = some 0 ∧
      (instantMicros (selectModified m) = some (modifiedStoredInstant m) ↔
        m.offSeconds = 0)) := by
  constructor
  · intro c
    refine ⟨rfl, ?_⟩
    simp [instantMicros, selectCreated, replaceTzUtc_tz, wallMicros_replaceTzUtc,
      createdStoredInstant]
  · intro m
    refine ⟨rfl, ?_⟩
    simp only [instantMicros, selectModified, replaceTzUtc_tz,
      wallMicros_replaceTzUtc, modifiedStoredInstant, Option.map_some',
      Option.some.injEq]
    constructor
    · intro h
      omega
    · intro h
      omega

/-! ### Parsed-markup tree and the accessor type (src/web.py).

A node carries an identity token ref standing for Python object
identity: two accessor objects wrap the identical node exactly when the
refs agree.  Attributes are modelled as an association list in a
canonical order (bs4 compares attribute dicts by value) with plain
string values. -/

/-- A node of the parsed markup tree: a navigable string or a tag with
name, attributes and contents in document order. -/
inductive BsNode where
  | text (ref : Nat) (s : String)
  | tag (ref : Nat) (name : String) (attrs : List (String × String)) (contents : List BsNode)

/-- Identity token of a node (Python object identity). -/
def nodeRef : BsNode → Nat
  | .text r _ => r
  | .tag r _ _ _ => r

/- bs4 tag equality: identical objects are equal (the identity
short-circuit), and otherwise two tags are equal when they have the same
name, the same attributes, and recursively equal contents; a navigable
string equals a navigable string with the same characters; a string
never equals a tag. -/
mutual
def nodeEq : BsNode → BsNode → Bool
  | .text _ s, .text _ t => s == t
  | .tag r n a c, .tag r' n' a' c' =>
    r == r' || (n == n' && a == a' && nodeListEq c c')
  | .text _ _, .tag _ _ _ _ => false
  | .tag _ _ _ _, .text _ _ => false
def nodeListEq : List BsNode → List BsNode → Bool
  | [], [] => true
  | x :: xs, y :: ys => nodeEq x y && nodeListEq xs ys
  | [], _ :: _ => false
  | _ :: _, [] => false
end

mutual
theorem nodeEq_refl : ∀ n : BsNode, nodeEq n n = true
  | .text _ s => by simp [nodeEq]
  | .tag _ n a c => by simp [nodeEq, nodeListEq_refl c]
theorem nodeListEq_refl : ∀ l : List BsNode, nodeListEq l l = true
  | [] => by simp [nodeListEq]
  | x :: xs => by simp [nodeListEq, nodeEq_refl x, nodeListEq_refl xs]
end

/-- Accessor wrapping a node of a parsed document (web.py Element); only
the wrapped node takes part in equality and hashing, so the parsed_html
back-reference is omitted. -/
structure Element where
  tag : BsNode

/-- Element equality (src/web.py lines 197-201): delegate to bs4 tag
equality after the isinstance check. -/
def elementEq (a b : Element) : Bool := nodeEq a.tag b.tag

/-- Element hash (src/web.py lines 194-195): the hash of the underlying
tag object, which bs4 leaves as the object hash, injective on object
identity. -/
def elementHash (e : Element) : Nat := nodeRef e.tag

/-- C8 counterexample: two accessor objects wrapping distinct nodes
(different identity tokens) that agree on tag name, attributes and
contents are equal, contradicting the claim that accessors wrapping
distinct nodes are unequal. -/
theorem elementEq_identity_cex :
    elementEq ⟨BsNode.tag 0 "span" [("id", "x")] []⟩
        ⟨BsNode.tag 1 "span" [("id", "x")] []⟩ = true ∧
    nodeRef (BsNode.tag 0 "span" [("id", "x")] []) ≠
      nodeRef (BsNode.tag 1 "span" [("id", "x")] []) := by
  constructor
  · decide
  · decide

/-- C8 (amended): two accessors wrapping the identical node are equal,
hashes agree exactly on identical nodes, and equality itself is
structural: accessors wrapping distinct tag nodes with the same name,
attributes and contents are also equal. -/
theorem elementEq_spec (e : Element) (r1 r2 : Nat) (n : String)
    (attrs : List (String × String)) (contents : List BsNode) :
    elementEq e e = true ∧
    (∀ a b : Element, elementHash a = elementHash b ↔ nodeRef a.tag = nodeRef b.tag) ∧
    elementEq ⟨BsNode.tag r1 n attrs contents⟩ ⟨BsNode.tag r2 n attrs contents⟩ = true := by
  refine ⟨nodeEq_refl e.tag, fun a b => Iff.rfl, ?_⟩
  simp [elementEq, nodeEq, nodeListEq_refl contents]

/-! ### BookmarkContext._extract (src/kobo.py lines 232-263): container
path parsing, duplicate-id lookup, first-match and last-match policy. -/

/-- Attribute lookup on the association list (bs4 attrs dict get). -/
def attrLookup (attrs : List (String × String)) (key : String) : Option String :=
  (attrs.find? (fun kv => kv.1 == key)).map (fun kv => kv.2)

/- All descendant tags with the given name and id attribute value, in
document order (preorder), as child-index paths relative to the node the
search starts from.  Models bs4 find_all(name, id-dict) as used by
Element.find_all_with_id (src/web.py lines 182-192); the cache in the
source is semantically transparent. -/
mutual
def findInNode (nm idv : String) (p : List Nat) : BsNode → List (List Nat)
  | .text _ _ => []
  | .tag _ n attrs c =>
    (if n = nm ∧ attrLookup attrs "id" = some idv then [p] else []) ++
      findInList nm idv p 0 c
def findInList (nm idv : String) (p : List Nat) (i : Nat) :
    List BsNode → List (List Nat)
  | [] => []
  | x :: xs => findInNode nm idv (p ++ [i]) x ++ findInList nm idv p (i + 1) xs
end

/-- Document order on child-index paths: an ancestor comes before its
descendants, siblings are ordered by index (lexicographic order with
the shorter path first). -/
def pathLe : List Nat → List Nat → Bool
  | [], _ => true
  | _ :: _, [] => false
  | a :: p, b :: q => if a < b then true else if a = b then pathLe p q else false

theorem pathLe_append (p r : List Nat) : pathLe p (p ++ r) = true := by
  induction p with
  | nil => rfl
  | cons a q ih => simp [pathLe, ih]

theorem pathLe_refl (p : List Nat) : pathLe p p = true := by
  have h := pathLe_append p []
  simpa using h

theorem pathLe_extend_lt {i j : Nat} (p r s : List Nat) (hij : i < j) :
    pathLe (p ++ i :: r) (p ++ j :: s) = true := by
  induction p with
  | nil => simp [pathLe, hij]
  | cons a q ih => simp [pathLe, ih]

/-- Split a character list at the last occurrence of the hash character:
semantics of the greedy group in the container-path regex of
src/kobo.py line 238. -/
def splitLastHash : List Char → Option (List Char × List Char)
  | [] => none
  | c :: rest =>
    match splitLastHash rest with
    | some (a, b) => some (c :: a, b)
    | none => if c = '#' then some ([], rest) else none

/-- Python str.replace of an escaped dot by a dot, scanning left to
right (src/kobo.py line 244). -/
def unescapeDots : List Char → List Char
  | '\\' :: '.' :: rest => '.' :: unescapeDots rest
  | c :: rest => c :: unescapeDots rest
  | [] => []

/-- Climb from a matched element to its top-level container
(src/kobo.py lines 259-263): walk parent links until the node whose
parent is the root.  An element that is the root itself or a direct
child of the root makes the walk run past the root and die on a parent
assertion, modelled as none. -/
def climbTop : List Nat → Option (List Nat)
  | [] => none
  | [_] => none
  | i :: _ :: _ => some [i]

/-- Selection step of BookmarkContext._extract once the matches are
known: assert at least one match (src/kobo.py line 252), take the first
or last match (lines 254-257), and climb to its top-level container. -/
def extractAnchorFrom (ms : List (List Nat)) (grabFirst : Bool) :
    Option (List Nat × List Nat) :=
  match ms with
  | [] => none
  | q :: rest =>
    let el := if grabFirst then q else (q :: rest).getLast (List.cons_ne_nil q rest)
    (climbTop el).map (fun cont => (el, cont))

/-- Translation of BookmarkContext._extract: parse the container path
(tag and escaped id around the last hash; the anchored regex again
treats newlines as in contentIDParse), unescape the id, search every
element with that tag and id under the root, and select. -/
def extractAnchor (containerPath : List Char) (innerContents : List BsNode)
    (grabFirst : Bool) : Option (List Nat × List Nat) :=
  let core := if containerPath.getLast? = some '\n' then
    containerPath.dropLast else containerPath
  if '\n' ∈ core then none
  else
    match splitLastHash core with
    | none => none
    | some (tagChars, idChars) =>
      extractAnchorFrom (findInList (String.mk tagChars)
        (String.mk (unescapeDots idChars)) [] 0 innerContents) grabFirst

/- Results of the descendant search are sorted in document order and
extend the base path: the search is a preorder traversal. -/
mutual
theorem findInNode_sorted (nm idv : String) :
    ∀ (p : List Nat) (n : BsNode),
    List.Pairwise (fun x y => pathLe x y = true) (findInNode nm idv p n) ∧
    ∀ q ∈ findInNode nm idv p n, p <+: q
  | p, .text _ _ => by simp [findInNode]
  | p, .tag r n attrs c => by
    obtain ⟨hpw, hpre⟩ := findInList_sorted nm idv p 0 c
    constructor
    · rw [findInNode, List.pairwise_append]
      refine ⟨?_, hpw, ?_⟩
      · split <;> simp
      · intro a ha b hb
        obtain ⟨j, r', _, hb'⟩ := hpre b hb
        split at ha
        · simp only [List.mem_singleton] at ha
          subst ha hb'
          exact pathLe_append _ _
        · simp at ha
    · intro q hq
      rw [findInNode, List.mem_append] at hq
      rcases hq with hq | hq
      · split at hq
        · simp only [List.mem_singleton] at hq
          subst hq
          exact List.prefix_refl _
        · simp at hq
      · obtain ⟨j, r', _, hq'⟩ := hpre q hq
        subst hq'
        exact ⟨j :: r', rfl⟩
theorem findInList_sorted (nm idv : String) :
    ∀ (p : List Nat) (i : Nat) (l : List BsNode),
    List.Pairwise (fun x y => pathLe x y = true) (findInList nm idv p i l) ∧
    ∀ q ∈ findInList nm idv p i l, ∃ j r, i ≤ j ∧ q = p ++ j :: r
  | p, i, [] => by simp [findInList]
  | p, i, x :: xs => by
    obtain ⟨hxpw, hxpre⟩ := findInNode_sorted nm idv (p ++ [i]) x
    obtain ⟨hlpw, hlpre⟩ := findInList_sorted nm idv p (i + 1) xs
    have hxform : ∀ q ∈ findInNode nm idv (p ++ [i]) x, ∃ r, q = p ++ i :: r := by
      intro q hq
      obtain ⟨r, hr⟩ := hxpre q hq
      exact ⟨r, by simpa using hr.symm⟩
    constructor
    · rw [findInList, List.pairwise_append]
      refine ⟨hxpw, hlpw, ?_⟩
      intro a ha b hb
      obtain ⟨ra, hra⟩ := hxform a ha
      obtain ⟨j, rb, hj, hrb⟩ := hlpre b hb
      subst hra hrb
      exact pathLe_extend_lt p ra rb (by omega)
    · intro q hq
      rw [findInList, List.mem_append] at hq
      rcases hq with hq | hq
      · obtain ⟨r, hr⟩ := hxform q hq
        exact ⟨i, r, le_refl i, hr⟩
      · obtain ⟨j, r, hj, hr⟩ := hlpre q hq
        exact ⟨j, r, by omega, hr⟩
end

/-- In a list that is pairwise related by a reflexive relation, every
element is related to the last element. -/
theorem pairwise_rel_getLast {α : Type} {R : α → α → Prop}
    (hrefl : ∀ x, R x x) :
    ∀ (l : List α), List.Pairwise R l → ∀ q ∈ l, ∀ m, l.getLast? = some m → R q m
  | [] => by intro _ q hq; simp at hq
  | x :: xs => by
    intro hpw q hq m hm
    cases xs with
    | nil =>
      simp only [List.mem_singleton] at hq
      simp only [List.getLast?_singleton, Option.some.injEq] at hm
      subst hq hm
      exact hrefl q
    | cons y ys =>
      have hm' : (y :: ys).getLast? = some m := by
        rw [List.getLast?_cons_cons] at hm
        exact hm
      rcases List.mem_cons.mp hq with hq | hq
      · subst hq
        exact (List.pairwise_cons.mp hpw).1 m (List.mem_of_mem_getLast? hm')
      · exact pairwise_rel_getLast hrefl (y :: ys) (List.pairwise_cons.mp hpw).2 q hq m hm'

/-- C1: anchor selection in BookmarkContext._extract.  When the
container path parses, the search under the root for the given tag and
unescaped id governs the result: zero matches is fatal (none), and any
extracted start (resp. end) anchor is a match that every match follows
(resp. precedes) in document order — the first (resp. last) match. -/
theorem extractAnchor_policy (cp : List Char) (inner : List BsNode)
    (tagChars idChars : List Char) (hnl : '\n' ∉ cp)
    (hsplit : splitLastHash cp = some (tagChars, idChars)) :
    (findInList (String.mk tagChars) (String.mk (unescapeDots idChars)) [] 0 inner = [] →
      ∀ b, extractAnchor cp inner b = none) ∧
    (∀ el cont, extractAnchor cp inner true = some (el, cont) →
      el ∈ findInList (String.mk tagChars) (String.mk (unescapeDots idChars)) [] 0 inner ∧
      ∀ q ∈ findInList (String.mk tagChars) (String.mk (unescapeDots idChars)) [] 0 inner,
        pathLe el q = true) ∧
    (∀ el cont, extractAnchor cp inner false = some (el, cont) →
      el ∈ findInList (String.mk tagChars) (String.mk (unescapeDots idChars)) [] 0 inner ∧
      ∀ q ∈ findInList (String.mk tagChars) (String.mk (unescapeDots idChars)) [] 0 inner,
        pathLe q el = true) := by
  have hlast : cp.getLast? ≠ some '\n' := by
    intro h
    exact hnl (List.mem_of_mem_getLast? h)
  have hcore : (if cp.getLast? = some '\n' then cp.dropLast else cp) = cp := if_neg hlast
  obtain ⟨hpw, _⟩ := findInList_sorted (String.mk tagChars)
    (String.mk (unescapeDots idChars)) [] 0 inner
  have key : ∀ b, extractAnchor cp inner b =
      extractAnchorFrom (findInList (String.mk tagChars)
        (String.mk (unescapeDots idChars)) [] 0 inner) b := by
    intro b
    unfold extractAnchor
    rw [hcore, if_neg hnl, hsplit]
  refine ⟨?_, ?_, ?_⟩
  · intro hms b
    rw [key b, hms]
    rfl
  · intro el cont hel
    rw [key true] at hel
    cases hms : findInList (String.mk tagChars)
        (String.mk (unescapeDots idChars)) [] 0 inner with
    | nil =>
      rw [hms] at hel
      exact absurd hel (by simp [extractAnchorFrom])
    | cons q rest =>
      rw [hms] at hel hpw
      simp only [extractAnchorFrom, if_pos, Option.map_eq_some'] at hel
      obtain ⟨cont', _, hel2⟩ := hel
      obtain ⟨hel1, _⟩ := Prod.mk.injEq .. ▸ hel2
      subst hel1
      constructor
      · exact List.mem_cons_self _ _
      · intro q' hq'
        rcases List.mem_cons.mp hq' with hq' | hq'
        · subst hq'
          exact pathLe_refl _
        · exact (List.pairwise_cons.mp hpw).1 q' hq'
  · intro el cont hel
    rw [key false] at hel
    cases hms : findInList (String.mk tagChars)
        (String.mk (unescapeDots idChars)) [] 0 inner with
    | nil =>
      rw [hms] at hel
      exact absurd hel (by simp [extractAnchorFrom])
    | cons q rest =>
      rw [hms] at hel hpw
      simp only [extractAnchorFrom, Option.map_eq_some'] at hel
      obtain ⟨cont', _, hel2⟩ := hel
      have hel1 : (if false = true then q else (q :: rest).getLast
          (List.cons_ne_nil q rest)) = el := congrArg Prod.fst hel2
      rw [if_neg (by simp)] at hel1
      subst hel1
      constructor
      · exact List.getLast_mem _
      · intro q' hq'
        refine pairwise_rel_getLast (fun x => pathLe_refl x) (q :: rest) hpw q' hq'
          _ (List.getLast?_eq_getLast _ _)

/-- A sample readable-body content list with a duplicated id: a span and
an image share the id k inside the first paragraph, and a second span
with the same id sits in the second paragraph. -/
def sampleInner : List BsNode :=
  [BsNode.tag 1 "p" []
      [BsNode.tag 2 "span" [("id", "k")] [], BsNode.tag 3 "img" [("id", "k")] []],
   BsNode.tag 4 "p" [] [BsNode.tag 5 "span" [("id", "k")] []]]

/-- Witness for the anchor-selection theorem: with duplicate span ids
the start anchor is the document-order-first match. -/
theorem extractAnchor_policy_witness :
    [0, 0] ∈ findInList "span" "k" [] 0 sampleInner ∧
    ∀ q ∈ findInList "span" "k" [] 0 sampleInner, pathLe [0, 0] q = true :=
  (extractAnchor_policy "span#k".data sampleInner "span".data "k".data
    (by decide) (by decide)).2.1 [0, 0] [0] (by decide)

/-! ### Heading resolution in BookmarkContext.extract (src/kobo.py
lines 199-219). -/

/- Text content of a node: bs4 get_text, the concatenation of every
navigable string in the subtree in document order. -/
mutual
def nodeText : BsNode → List Char
  | .text _ s => s.data
  | .tag _ _ _ c => nodeListText c
def nodeListText : List BsNode → List Char
  | [] => []
  | x :: xs => nodeText x ++ nodeListText xs
end

/-- Python whitespace as stripped by str.strip. -/
def pySpace (c : Char) : Bool :=
  c = ' ' || c = '\t' || c = '\n' || c = '\r' || c = '\x0b' || c = '\x0c'

/-- Python str.strip. -/
def pyStrip (l : List Char) : List Char :=
  ((l.dropWhile pySpace).reverse.dropWhile pySpace).reverse

/-- Tag name of a node (only tags are ever wrapped by the accessor). -/
def nodeName : BsNode → String
  | .text _ _ => ""
  | .tag _ n _ _ => n

/-- Heading level of a tag name per the regex of src/kobo.py line 199: a
letter h followed by exactly one digit (the Python pattern accepts any
digit, not only 1-6; non-ascii digit tag names do not occur). -/
def hLevel (nm : String) : Option Int :=
  match nm.data with
  | ['h', c] => if c.isDigit then some ((c.toNat : Int) - ('0'.toNat : Int)) else none
  | _ => none

/-- The heading-collection loop (src/kobo.py lines 201-209): walk the
siblings nearest-first and record the first sibling seen per level. -/
def buildHeadings : List BsNode → List (Int × BsNode) → List (Int × BsNode)
  | [], acc => acc
  | s :: rest, acc =>
    match hLevel (nodeName s) with
    | none => buildHeadings rest acc
    | some l =>
      if (acc.lookup l).isSome then buildHeadings rest acc
      else buildHeadings rest (acc ++ [(l, s)])

/-- prev_siblings with add_self (src/web.py lines 97-131) for the child
at index i of a parent with the given contents: the element itself
followed by the preceding sibling tags in reverse document order. -/
def isTagNode : BsNode → Bool
  | .tag _ _ _ _ => true
  | .text _ _ => false

def prevSiblingsWithSelf (contents : List BsNode) (i : Nat) : List BsNode :=
  match contents.get? i with
  | none => []
  | some x => x :: ((contents.take i).filter isTagNode).reverse

/-- Translation of the heading map construction of
BookmarkContext.extract (src/kobo.py lines 199-219): collect the nearest
heading per level over the preceding siblings (self included,
nearest-first); when none is found, fall back to the sentinel level -1
mapped to the first direct child of the root with non-empty stripped
text — and, by the for-else shape of the loop, to the last direct child
when every child strips to empty.  With no children at all the loop
variable is unbound (a NameError), modelled as none. -/
def computeHeadings (siblings children : List BsNode) :
    Option (List (Int × BsNode)) :=
  let hs := buildHeadings siblings []
  if hs.isEmpty then
    match children with
    | [] => none
    | c0 :: cs =>
      some [(-1, ((c0 :: cs).find? (fun c => !(pyStrip (nodeText c)).isEmpty)).getD
        ((c0 :: cs).getLast (List.cons_ne_nil c0 cs)))]
  else some hs

theorem lookup_append (l1 l2 : List (Int × BsNode)) (k : Int) :
    (l1 ++ l2).lookup k = (l1.lookup k).or (l2.lookup k) := by
  induction l1 with
  | nil => simp
  | cons p rest ih =>
    by_cases h : k = p.1
    · simp [List.lookup, h]
    · have hb : (k == p.1) = false := by simpa using h
      simp only [List.cons_append, List.lookup, hb]
      exact ih

theorem buildHeadings_lookup :
    ∀ (siblings : List BsNode) (acc : List (Int × BsNode)) (l : Int),
    List.lookup l (buildHeadings siblings acc) =
      (List.lookup l acc).or
        (List.find? (fun s => hLevel (nodeName s) == some l) siblings) := by
  intro siblings
  induction siblings with
  | nil => intro acc l; simp [buildHeadings]
  | cons s rest ih =>
    intro acc l
    rw [buildHeadings]
    cases hs : hLevel (nodeName s) with
    | none =>
      have hb : (hLevel (nodeName s) == some l) = false := by simp [hs]
      rw [ih, List.find?_cons]
      simp only [hb]
    | some m =>
      by_cases hml : m = l
      · subst hml
        have hb : (hLevel (nodeName s) == some m) = true := by simp [hs]
        rw [List.find?_cons]
        simp only [hb]
        by_cases hacc : (List.lookup m acc).isSome
        · rw [if_pos hacc, ih]
          obtain ⟨v, hv⟩ := Option.isSome_iff_exists.mp hacc
          rw [hv]
          simp
        · rw [if_neg hacc, ih, lookup_append]
          have hnone : List.lookup m acc = none := Option.not_isSome_iff_eq_none.mp hacc
          rw [hnone]
          simp [List.lookup]
      · have hb : (hLevel (nodeName s) == some l) = false := by simp [hs, hml]
        rw [List.find?_cons]
        simp only [hb]
        by_cases hacc : (List.lookup m acc).isSome
        · rw [if_pos hacc, ih]
        · rw [if_neg hacc, ih, lookup_append]
          have h2 : List.lookup l [(m, s)] = none := by
            have hb2 : (l == m) = false := by simp [Ne.symm hml]
            simp [List.lookup, hb2]
          rw [h2]
          simp

theorem buildHeadings_nil (siblings : List BsNode)
    (h : ∀ s ∈ siblings, hLevel (nodeName s) = none) :
    buildHeadings siblings [] = [] := by
  induction siblings with
  | nil => rfl
  | cons s rest ih =>
    rw [buildHeadings, h s (List.mem_cons_self _ _)]
    exact ih (fun x hx => h x (List.mem_cons_of_mem _ hx))

/-- C4 (amended): heading resolution.  When the map is extracted, every
level maps to the nearest heading among the preceding siblings
(self included, nearest-first) of that level; when no sibling is a
heading of any digit level, the map is exactly the sentinel entry
mapped to the first direct child of the root with non-empty trimmed
text, or to the last direct child when every child trims to empty —
extraction only fails when the root has no element children at all. -/
theorem computeHeadings_spec (siblings children : List BsNode)
    (res : List (Int × BsNode))
    (h : computeHeadings siblings children = some res) :
    ((∃ s ∈ siblings, (hLevel (nodeName s)).isSome) →
      ∀ l : Int, res.lookup l =
        siblings.find? (fun s => hLevel (nodeName s) == some l)) ∧
    ((∀ s ∈ siblings, hLevel (nodeName s) = none) →
      children ≠ [] ∧
      ∃ c, res = [(-1, c)] ∧
        (children.find? (fun c0 => !(pyStrip (nodeText c0)).isEmpty) = some c ∨
          (children.find? (fun c0 => !(pyStrip (nodeText c0)).isEmpty) = none ∧
            children.getLast? = some c))) := by
  constructor
  · rintro ⟨s0, hs0, hs0lvl⟩ l
    obtain ⟨m, hm⟩ := Option.isSome_iff_exists.mp hs0lvl
    have hne : buildHeadings siblings [] ≠ [] := by
      intro hnil
      have := buildHeadings_lookup siblings [] m
      rw [hnil] at this
      simp only [List.lookup, Option.none_or] at this
      have hfind : (List.find? (fun s => hLevel (nodeName s) == some m) siblings).isSome := by
        rw [List.find?_isSome]
        exact ⟨s0, hs0, by simp [hm]⟩
      rw [← this] at hfind
      simp at hfind
    have hres : res = buildHeadings siblings [] := by
      unfold computeHeadings at h
      rw [if_neg (by simpa using hne)] at h
      exact (Option.some.injEq _ _ ▸ h).symm
    rw [hres, buildHeadings_lookup]
    simp [List.lookup]
  · intro hnone
    have hnil := buildHeadings_nil siblings hnone
    unfold computeHeadings at h
    rw [hnil] at h
    simp only [List.isEmpty_nil, if_pos] at h
    cases children with
    | nil => exact absurd h (by simp)
    | cons c0 cs =>
      simp only [Option.some.injEq] at h
      refine ⟨by simp, ?_⟩
      cases hfind : (c0 :: cs).find? (fun c => !(pyStrip (nodeText c)).isEmpty) with
      | none =>
        refine ⟨(c0 :: cs).getLast (List.cons_ne_nil c0 cs), ?_, Or.inr ⟨rfl, ?_⟩⟩
        · rw [← h, hfind]
          rfl
        · rw [List.getLast?_eq_getLast]
      | some c =>
        refine ⟨c, ?_, Or.inl rfl⟩
        rw [← h, hfind]
        rfl

/-- C4 counterexample: siblings without any heading tag and a root whose
direct children all trim to empty text.  The claim requires a fatal
failure, but extraction succeeds and maps the sentinel to the last
child. -/
theorem computeHeadings_cex :
    computeHeadings [BsNode.tag 5 "p" [] []]
        [BsNode.tag 6 "p" [] [BsNode.text 9 " "],
         BsNode.tag 7 "div" [] [BsNode.text 8 " "]] =
      some [(-1, BsNode.tag 7 "div" [] [BsNode.text 8 " "])] ∧
    pyStrip (nodeText (BsNode.tag 6 "p" [] [BsNode.text 9 " "])) = [] ∧
    pyStrip (nodeText (BsNode.tag 7 "div" [] [BsNode.text 8 " "])) = [] ∧
    hLevel (nodeName (BsNode.tag 5 "p" [] [])) = none := by
  refine ⟨rfl, rfl, rfl, rfl⟩

/-- Sample sibling walk with a duplicate level: nearest-first order, so
level 2 resolves to the earlier of the two h2 tags in the list. -/
def sampleSiblings : List BsNode :=
  [BsNode.tag 1 "p" [] [], BsNode.tag 2 "h2" [] [],
   BsNode.tag 3 "h1" [] [], BsNode.tag 4 "h2" [] []]

/-- Witness for the heading-resolution theorem at a concrete walk. -/
theorem computeHeadings_spec_witness :
    List.lookup (2 : Int)
        [((2 : Int), BsNode.tag 2 "h2" [] []), (1, BsNode.tag 3 "h1" [] [])] =
      List.find? (fun s => hLevel (nodeName s) == some 2) sampleSiblings :=
  (computeHeadings_spec sampleSiblings [BsNode.tag 6 "p" [] []] _ rfl).1
    ⟨BsNode.tag 2 "h2" [] [],
      List.mem_cons_of_mem _ (List.mem_cons_self _ _), rfl⟩ 2

/-! ### Grouping stage: _group_bookmarks (src/s_bookmarks.py lines
142-197).

Grouping only reads, per (bookmark, context) pair, the chapter, the
member path and the container list with its source lines; a pair is
modelled by exactly those fields.  The chapter value is opaque and only
compared for equality. -/

/-- A container element as seen by grouping: an identity stand-in and
the bs4 sourceline, which is optional. -/
structure PyContainer where
  node : Nat
  sourceline : Option Int
deriving DecidableEq

/-- A (bookmark, context) pair as seen by grouping. -/
structure GPair where
  chapter : Int
  xhtml : String
  containers : List PyContainer
deriving DecidableEq

/-- A group of pairs with the merged container range. -/
structure GroupedBookmarks where
  pairs : List GPair
  containers : List PyContainer
deriving DecidableEq

/-- The inner scan of _group_bookmarks (lines 153-175): starting from
the group head's chapter, member path and bottommost container, absorb
following pairs until the member path or chapter changes or the next
pair's first container starts strictly below the bottommost line.
Returns the absorbed tail and the remainder.  The source reads
containers[0] before any break (IndexError on an empty container list)
and asserts both source lines present before comparing. -/
def scanGroup (bc : Int) (bx : String) :
    PyContainer → List GPair → Option (List GPair × List GPair)
  | _, [] => some ([], [])
  | bottom, p :: rest =>
    match p.containers.head? with
    | none => none
    | some fc =>
      if p.xhtml ≠ bx then some ([], p :: rest)
      else if p.chapter ≠ bc then some ([], p :: rest)
      else
        match fc.sourceline, bottom.sourceline with
        | some sl, some bl =>
          if sl > bl then some ([], p :: rest)
          else
            match p.containers.getLast? with
            | none => none
            | some nb => (scanGroup bc bx nb rest).map (fun gr => (p :: gr.1, gr.2))
        | _, _ => none

/-- The container-union loop body (lines 184-190): append the containers
of one more pair that start strictly below the accumulated bottommost
line, asserting source lines present. -/
def extendContainers : List PyContainer → List PyContainer →
    Option (List PyContainer)
  | gcs, [] => some gcs
  | gcs, c :: rest =>
    match gcs.getLast? with
    | none => none
    | some last =>
      match c.sourceline, last.sourceline with
      | some sl, some bl =>
        if sl > bl then extendContainers (gcs ++ [c]) rest
        else extendContainers gcs rest
      | _, _ => none

/-- The container-union loop over the group tail (lines 180-190),
starting from the head pair's containers. -/
def buildContainersLoop : List PyContainer → List GPair →
    Option (List PyContainer)
  | gcs, [] => some gcs
  | gcs, p :: rest =>
    match extendContainers gcs p.containers with
    | none => none
    | some gcs' => buildContainersLoop gcs' rest

/-- The outer loop of _group_bookmarks, structured on a fuel bound: each
iteration takes the head pair (reading its bottommost container, an
IndexError on an empty list), scans the group tail, merges the container
ranges, and recurses on the remainder.  One pair is consumed per
iteration, so any fuel of at least the list length is exact. -/
def groupBookmarksFuel : Nat → List GPair → Option (List GroupedBookmarks)
  | _, [] => some []
  | 0, _ :: _ => none
  | fuel + 1, p :: rest =>
    match p.containers.getLast? with
    | none => none
    | some bottom =>
      match scanGroup p.chapter p.xhtml bottom rest with
      | none => none
      | some (g, rem) =>
        match buildContainersLoop p.containers g with
        | none => none
        | some cs =>
          match groupBookmarksFuel fuel rem with
          | none => none
          | some gs => some (⟨p :: g, cs⟩ :: gs)

/-- Translation of _group_bookmarks. -/
def groupBookmarks (ps : List GPair) : Option (List GroupedBookmarks) :=
  groupBookmarksFuel ps.length ps

theorem scanGroup_append (bc : Int) (bx : String) :
    ∀ (bottom : PyContainer) (l g rem : List GPair),
    scanGroup bc bx bottom l = some (g, rem) → l = g ++ rem := by
  intro bottom l
  induction l generalizing bottom with
  | nil =>
    intro g rem h
    simp only [scanGroup, Option.some.injEq, Prod.mk.injEq] at h
    simp [← h.1, ← h.2]
  | cons p rest ih =>
    intro g rem h
    rw [scanGroup] at h
    cases hfc : p.containers.head? with
    | none => rw [hfc] at h; exact absurd h (by simp)
    | some fc =>
      rw [hfc] at h
      dsimp only at h
      split_ifs at h with h1 h2
      · obtain ⟨hg, hrem⟩ := Prod.mk.injEq .. ▸ Option.some.injEq .. ▸ h
        simp [← hg, ← hrem]
      · obtain ⟨hg, hrem⟩ := Prod.mk.injEq .. ▸ Option.some.injEq .. ▸ h
        simp [← hg, ← hrem]
      · cases hsl : fc.sourceline with
        | none => rw [hsl] at h; exact absurd h (by simp)
        | some sl =>
          cases hbl : bottom.sourceline with
          | none => rw [hsl, hbl] at h; exact absurd h (by simp)
          | some bl =>
            rw [hsl, hbl] at h
            dsimp only at h
            split_ifs at h with h3
            · obtain ⟨hg, hrem⟩ := Prod.mk.injEq .. ▸ Option.some.injEq .. ▸ h
              simp [← hg, ← hrem]
            · cases hnb : p.containers.getLast? with
              | none => rw [hnb] at h; exact absurd h (by simp)
              | some nb =>
                rw [hnb] at h
                dsimp only at h
                cases hsc : scanGroup bc bx nb rest with
                | none => rw [hsc] at h; exact absurd h (by simp)
                | some gr =>
                  rw [hsc] at h
                  simp only [Option.map_some', Option.some.injEq] at h
                  obtain ⟨hg, hrem⟩ := Prod.mk.injEq .. ▸ h
                  subst hg hrem
                  have := ih nb gr.1 gr.2 (by rw [hsc])
                  simp [this]

/-- C5: the groups partition the input.  Whenever grouping succeeds, the
pair sequences of the emitted groups, concatenated in emission order,
are exactly the input sequence — every input pair lands in exactly one
group and group order follows input order. -/
theorem groupBookmarks_partition (ps : List GPair) (gs : List GroupedBookmarks)
    (h : groupBookmarks ps = some gs) :
    (gs.map GroupedBookmarks.pairs).join = ps := by
  suffices key : ∀ (n : Nat) (l : List GPair) (gs' : List GroupedBookmarks),
      l.length ≤ n → groupBookmarksFuel n l = some gs' →
      (gs'.map GroupedBookmarks.pairs).join = l by
    exact key ps.length ps gs (le_refl _) h
  intro n
  induction n with
  | zero =>
    intro l gs' hlen hfl
    cases l with
    | nil =>
      simp only [groupBookmarksFuel, Option.some.injEq] at hfl
      simp [← hfl]
    | cons p rest => simp at hlen
  | succ n ih =>
    intro l gs' hlen hfl
    cases l with
    | nil =>
      simp only [groupBookmarksFuel, Option.some.injEq] at hfl
      simp [← hfl]
    | cons p rest =>
      rw [groupBookmarksFuel] at hfl
      cases hbl : p.containers.getLast? with
      | none => rw [hbl] at hfl; exact absurd hfl (by simp)
      | some bottom =>
        rw [hbl] at hfl
        dsimp only at hfl
        cases hsc : scanGroup p.chapter p.xhtml bottom rest with
        | none => rw [hsc] at hfl; exact absurd hfl (by simp)
        | some gr =>
          rw [hsc] at hfl
          dsimp only at hfl
          obtain ⟨g, rem⟩ := gr
          have hsplit := scanGroup_append p.chapter p.xhtml bottom rest g rem hsc
          cases hbc : buildContainersLoop p.containers g with
          | none => rw [hbc] at hfl; exact absurd hfl (by simp)
          | some cs =>
            rw [hbc] at hfl
            dsimp only at hfl
            cases hrec : groupBookmarksFuel n rem with
            | none => rw [hrec] at hfl; exact absurd hfl (by simp)
            | some gs2 =>
              rw [hrec] at hfl
              dsimp only at hfl
              simp only [Option.some.injEq] at hfl
              have hremlen : rem.length ≤ n := by
                have : rest.length ≤ n := by simpa using hlen
                have : rem.length ≤ rest.length := by
                  rw [hsplit]
                  simp
                omega
              have hjoin := ih rem gs2 hremlen hrec
              rw [← hfl]
              simp only [List.map_cons, List.join_cons, hjoin]
              rw [hsplit]
              simp

/-- Witness for the grouping-partition theorem: two pairs in different
member files form two singleton groups whose concatenation is the
input. -/
theorem groupBookmarks_partition_witness :
    ((groupBookmarks
        [⟨1, "a", [⟨10, some 5⟩]⟩, ⟨1, "b", [⟨11, some 1⟩]⟩]).map
      (fun gs => (gs.map GroupedBookmarks.pairs).join)) =
      some [⟨1, "a", [⟨10, some 5⟩]⟩, ⟨1, "b", [⟨11, some 1⟩]⟩] := by
  rw [show groupBookmarks [⟨1, "a", [⟨10, some 5⟩]⟩, ⟨1, "b", [⟨11, some 1⟩]⟩] =
      some [⟨[⟨1, "a", [⟨10, some 5⟩]⟩], [⟨10, some 5⟩]⟩,
        ⟨[⟨1, "b", [⟨11, some 1⟩]⟩], [⟨11, some 1⟩]⟩] from by decide]
  rw [Option.map_some']
  rw [groupBookmarks_partition
    [⟨1, "a", [⟨10, some 5⟩]⟩, ⟨1, "b", [⟨11, some 1⟩]⟩]
    [⟨[⟨1, "a", [⟨10, some 5⟩]⟩], [⟨10, some 5⟩]⟩,
      ⟨[⟨1, "b", [⟨11, some 1⟩]⟩], [⟨11, some 1⟩]⟩] (by decide)]

/-! ### Renderer: MarkdownFormatter (src/c_bookmarks.py).

Rendered text is a character list (Python slicing in _format_span is by
characters).  The per-group render state models the Formatting object:
the pending pair-index set unquoted_pair_indices as a list, plus a ghost
event log of removals used to state the exactly-once property; the
indentation level is constant zero in the source and omitted.  A
(bookmark, context) pair is modelled by the four fields the renderer
reads: the two anchor nodes and the two character offsets. -/

/-- Render state: pending pair indices and the ghost removal log. -/
structure RState where
  unquoted : List Nat
  removed : List Nat
deriving DecidableEq

/-- The per-pair context data read by _format_span. -/
structure PairCtx where
  bookmark_start : BsNode
  bookmark_start_offset : Nat
  bookmark_end : BsNode
  bookmark_end_offset : Nat

/-- Initial state of a Formatting object (src/c_bookmarks.py line 73):
all pair indices pending. -/
def initState (pairs : List PairCtx) : RState :=
  ⟨List.range pairs.length, []⟩

/-- The open-marker sequence spliced at a start offset
(src/c_bookmarks.py line 396). -/
def openMarker : List Char := "<u><b>".data

/-- The close-marker sequence plus footnote superscript spliced at an
end offset (src/c_bookmarks.py lines 389-390). -/
def closeMarker (i : Nat) : List Char :=
  "</b></u><sup>[IK.".data ++ (Nat.repr (i + 1)).data ++ "]</sup>".data

/-- Python string splice s[:idx] + ins + s[idx:], character positions,
clamping like Python slices. -/
def insertAt (idx : Nat) (ins md : List Char) : List Char :=
  md.take idx ++ ins ++ md.drop idx

/-- Python sorted(..., reverse=True) on pair indices, by insertion. -/
def insertDesc (i : Nat) : List Nat → List Nat
  | [] => [i]
  | j :: rest => if j ≤ i then i :: j :: rest else j :: insertDesc i rest

def sortDesc : List Nat → List Nat
  | [] => []
  | i :: rest => insertDesc i (sortDesc rest)

/-- The splice loop of _format_span (src/c_bookmarks.py lines 382-397)
over the sorted pending indices anchored at this element: insert the
close marker at the pair's end offset and consume the pair when the
element is its end anchor, then insert the open marker at the start
offset when it is its start anchor. -/
def processSpan (pairs : List PairCtx) (e : BsNode) :
    List Nat → List Char → RState → Option (List Char × RState)
  | [], md, st => some (md, st)
  | i :: rest, md, st =>
    match pairs[i]? with
    | none => none
    | some pr =>
      let mdst :=
        if nodeEq e pr.bookmark_end then
          (insertAt pr.bookmark_end_offset (closeMarker i) md,
            (⟨st.unquoted.erase i, st.removed ++ [i]⟩ : RState))
        else (md, st)
      let md2 :=
        if nodeEq e pr.bookmark_start then
          insertAt pr.bookmark_start_offset openMarker mdst.1
        else mdst.1
      processSpan pairs e rest md2 mdst.2

/-- Translation of _format_span after the children are rendered
(src/c_bookmarks.py lines 373-398): collect the pending pairs anchored
at this element (reading pairs by index, an IndexError on a stale
index), process them in descending pair-index order. -/
def spanSplice (pairs : List PairCtx) (e : BsNode) (md : List Char)
    (st : RState) : Option (List Char × RState) :=
  if st.unquoted.any (fun i => pairs.length ≤ i) then none
  else
    processSpan pairs e
      (sortDesc (st.unquoted.filter (fun i =>
        match pairs[i]? with
        | none => false
        | some pr => nodeEq e pr.bookmark_start || nodeEq e pr.bookmark_end)))
      md st

/-- Heading level from the tag name, name[1] as an integer
(src/c_bookmarks.py line 246). -/
def headerLevel (nm : String) : Nat :=
  match nm.data with
  | _ :: c :: _ => c.toNat - '0'.toNat
  | _ => 0

/- Descendant tags with a given name in document order: bs4
find_all(name) as used by Element.find (src/web.py lines 133-165, with
no class filter). -/
mutual
def findTagsInNode (nm : String) : BsNode → List BsNode
  | .text _ _ => []
  | .tag r n a c => (if n = nm then [BsNode.tag r n a c] else []) ++ findTagsInList nm c
def findTagsInList (nm : String) : List BsNode → List BsNode
  | [] => []
  | x :: xs => findTagsInNode nm x ++ findTagsInList nm xs
end

/-- Direct child tags with a given name: find_all(name,
recursive=False) as used on tbody (src/c_bookmarks.py line 315). -/
def directTags (nm : String) (contents : List BsNode) : List BsNode :=
  contents.filter (fun n => isTagNode n && nodeName n == nm)

/-- Contents of a tag node. -/
def tagContents : BsNode → List BsNode
  | .text _ _ => []
  | .tag _ _ _ c => c

/-- Python ' | '.join on rendered cells. -/
def joinCells : List (List Char) → List Char
  | [] => []
  | [c] => c
  | c :: rest => c ++ " | ".data ++ joinCells rest

/-- One pipe-delimited table line (src/c_bookmarks.py lines 355-359). -/
def pipeRow (cells : List (List Char)) : List Char :=
  "| ".data ++ joinCells cells ++ " |\n".data

/-- Column-width normalisation and row emission of _format_table
(src/c_bookmarks.py lines 340-361): the width is the maximum cell count
(Python max over an empty row sequence raises, modelled none), every row
is padded with empty cells, and header, separator and body lines are
emitted. -/
def tableEmit (headers : List (List Char)) (rows : List (List (List Char))) :
    Option (List Char) :=
  match rows with
  | [] => none
  | _ =>
    let width := Nat.max headers.length
      (rows.foldl (fun m r => Nat.max m r.length) 0)
    let fill := fun (row : List (List Char)) =>
      row ++ List.replicate (width - row.length) []
    some (pipeRow (fill headers) ++
      pipeRow (List.replicate width "---".data) ++
      (rows.map (fun r => pipeRow (fill r))).foldr (fun a b => a ++ b) [])

/- The recursive renderer.  Fuel is decremented on every nested call;
any fuel at least the tree depth plus list lengths is exact, and fuel
exhaustion yields none (the source recursion always terminates on
finite trees, so every claim below quantifies over or fixes a
sufficient fuel).  Dispatch follows _format_fp (src/c_bookmarks.py
lines 222-243): heading levels, italic, link, paragraph, image, table,
span, div, the literal-passthrough allow-list, and a fatal
NotImplementedError otherwise (none).  The image case performs
filesystem IO and is out of the embedding, modelled as none; no claim
touches it. -/
mutual
def formatElement (pairs : List PairCtx) :
    Nat → BsNode → RState → Option (List Char × RState)
  | 0, _, _ => none
  | _ + 1, .text _ _, _ => none
  | fuel + 1, .tag r nm attrs contents, st =>
    if nm = "h1" ∨ nm = "h2" ∨ nm = "h3" ∨ nm = "h4" ∨ nm = "h5" ∨ nm = "h6" then
      (formatChildren pairs fuel contents st).map (fun x =>
        (List.replicate (headerLevel nm) '#' ++ ' ' :: x.1, x.2))
    else if nm = "i" then
      (formatChildren pairs fuel contents st).map (fun x =>
        ('*' :: x.1 ++ ['*'], x.2))
    else if nm = "a" then
      match attrLookup attrs "href" with
      | none => some ([], st)
      | some href =>
        (formatChildren pairs fuel contents st).map (fun x =>
          ("<a href=".data ++ href.data ++ '>' :: x.1 ++ "</a>".data, x.2))
    else if nm = "p" then
      formatChildren pairs fuel contents st
    else if nm = "img" then none
    else if nm = "table" then
      formatTable pairs fuel contents st
    else if nm = "span" then
      (formatChildren pairs fuel contents st).bind (fun x =>
        spanSplice pairs (BsNode.tag r nm attrs contents) x.1 x.2)
    else if nm = "div" then
      formatChildren pairs fuel contents st
    else if nm = "em" ∨ nm = "small" ∨ nm = "sup" ∨ nm = "sub" ∨ nm = "cite" then
      (formatChildren pairs fuel contents st).map (fun x =>
        ('<' :: nm.data ++ '>' :: x.1 ++ '<' :: '/' :: nm.data ++ ['>'], x.2))
    else none
def formatChildren (pairs : List PairCtx) :
    Nat → List BsNode → RState → Option (List Char × RState)
  | 0, _, _ => none
  | _ + 1, [], st => some ([], st)
  | fuel + 1, .text _ s :: rest, st =>
    (formatChildren pairs fuel rest st).map (fun x => (s.data ++ x.1, x.2))
  | fuel + 1, .tag r n a c :: rest, st =>
    (formatElement pairs fuel (BsNode.tag r n a c) st).bind (fun x =>
      (formatChildren pairs fuel rest x.2).map (fun y => (x.1 ++ y.1, y.2)))
def formatTable (pairs : List PairCtx) :
    Nat → List BsNode → RState → Option (List Char × RState)
  | 0, _, _ => none
  | fuel + 1, contents, st =>
    match findTagsInList "tbody" contents with
    | [body] =>
      (formatTrs pairs fuel (directTags "tr" (tagContents body)) st).bind
        (fun out => (tableEmit out.1 out.2.1).map (fun md => (md, out.2.2)))
    | _ => none
def formatTrs (pairs : List PairCtx) :
    Nat → List BsNode → RState →
    Option (List (List Char) × List (List (List Char)) × RState)
  | 0, _, _ => none
  | _ + 1, [], st => some ([], [], st)
  | fuel + 1, tr :: rest, st =>
    (formatCells pairs fuel (tagContents tr) st).bind (fun c =>
      (formatTrs pairs fuel rest c.2.2).map (fun t =>
        (c.1 ++ t.1, c.2.1 :: t.2.1, t.2.2)))
def formatCells (pairs : List PairCtx) :
    Nat → List BsNode → RState →
    Option (List (List Char) × List (List Char) × RState)
  | 0, _, _ => none
  | _ + 1, [], st => some ([], [], st)
  | fuel + 1, .text _ s :: rest, st =>
    if (pyStrip s.data).isEmpty then formatCells pairs fuel rest st
    else none
  | fuel + 1, .tag r n a c :: rest, st =>
    if n = "th" then
      (formatChildren pairs fuel c st).bind (fun x =>
        (formatCells pairs fuel rest x.2).map (fun o =>
          (pyStrip x.1 :: o.1, o.2.1, o.2.2)))
    else if n = "td" then
      (formatChildren pairs fuel c st).bind (fun x =>
        (formatCells pairs fuel rest x.2).map (fun o =>
          (o.1, pyStrip x.1 :: o.2.1, o.2.2)))
    else none
def formatContainers (pairs : List PairCtx) :
    Nat → List BsNode → RState → Option (List (List Char) × RState)
  | 0, _, _ => none
  | _ + 1, [], st => some ([], st)
  | fuel + 1, e :: rest, st =>
    (formatElement pairs fuel e st).bind (fun x =>
      (formatContainers pairs fuel rest x.2).map (fun y => (x.1 :: y.1, y.2)))
end

/-- Translation of MarkdownFormatter.format_args (src/c_bookmarks.py
lines 210-220): render every container of the group starting from a
fresh Formatting state, then assert that no pair index is left pending
(modelled: none on a non-empty leftover). -/
def formatArgs (pairs : List PairCtx) (fuel : Nat) (containers : List BsNode) :
    Option (List (List Char) × RState) :=
  (formatContainers pairs fuel containers (initState pairs)).bind (fun x =>
    if x.2.unquoted = [] then some x else none)

/-- The single-row table with one header cell A and one body cell B. -/
def sampleTable : BsNode :=
  BsNode.tag 0 "table" []
    [BsNode.tag 1 "tbody" []
      [BsNode.tag 2 "tr" []
        [BsNode.tag 3 "th" [] [BsNode.text 4 "A"],
         BsNode.tag 5 "td" [] [BsNode.text 6 "B"]]]]

/-- C9: rendering a table whose header cells are A and whose single body
row is B emits exactly the three pipe-delimited lines. -/
theorem formatTable_single_column :
    formatElement [] 10 sampleTable (initState []) =
      some ("| A |\n| --- |\n| B |\n".data, initState []) := by decide

/-! ### The splice-insertion algebra for C2. -/

theorem insertAt_length {j : Nat} {v md : List Char} (hj : j ≤ md.length) :
    (insertAt j v md).length = md.length + v.length := by
  unfold insertAt
  simp only [List.length_append, List.length_take, List.length_drop]
  omega

theorem insertAt_take_le {i j : Nat} (v md : List Char) (hij : i ≤ j)
    (hj : j ≤ md.length) : (insertAt j v md).take i = md.take i := by
  unfold insertAt
  have h1 : i ≤ (md.take j).length := by
    simp only [List.length_take]
    omega
  have h2 : i ≤ (md.take j ++ v).length := by
    simp only [List.length_append]
    omega
  rw [show md.take j ++ v ++ md.drop j = (md.take j ++ v) ++ md.drop j from by
    simp [List.append_assoc]]
  rw [List.take_append_of_le_length h2, List.take_append_of_le_length h1,
    List.take_take, Nat.min_eq_left hij]

theorem insertAt_drop_le {i j : Nat} (v md : List Char) (hij : i ≤ j)
    (hj : j ≤ md.length) :
    (insertAt j v md).drop i = (md.take j).drop i ++ v ++ md.drop j := by
  unfold insertAt
  have h1 : i ≤ (md.take j).length := by
    simp only [List.length_take]
    omega
  have h2 : i ≤ (md.take j ++ v).length := by
    simp only [List.length_append]
    omega
  rw [show md.take j ++ v ++ md.drop j = (md.take j ++ v) ++ md.drop j from by
    simp [List.append_assoc]]
  rw [List.drop_append_of_le_length h2, List.drop_append_of_le_length h1]

theorem insertAt_insertAt {i j : Nat} (u v md : List Char) (hij : i ≤ j)
    (hj : j ≤ md.length) :
    insertAt i u (insertAt j v md) =
      md.take i ++ u ++ ((md.take j).drop i) ++ v ++ md.drop j := by
  rw [show insertAt i u (insertAt j v md) =
      (insertAt j v md).take i ++ u ++ (insertAt j v md).drop i from rfl]
  rw [insertAt_take_le v md hij hj, insertAt_drop_le v md hij hj]
  simp [List.append_assoc]

/-- C2: boundary splicing in _format_span.  The span case of the tag
dispatch renders the element's children and splices into that freshly
rendered string; a pending pair whose end (resp. start) anchor matches
the visited element gets the close marker inserted at its end offset
(resp. the open marker at its start offset), character positions into
the rendered children; and when two pending pairs share the anchor they
are processed in descending pair-index order, so the higher-index pair's
marker is inserted first and the lower-index pair's markers nest around
their own offsets in the original rendered text. -/
theorem spanSplice_markers (pairs : List PairCtx) (r fuel : Nat)
    (attrs : List (String × String)) (contents : List BsNode) (st0 : RState)
    (k1 k2 : Nat) (p1 p2 : PairCtx) (e : BsNode) (md : List Char) (st : RState)
    (hk : k1 < k2) (hp1 : pairs[k1]? = some p1) (hp2 : pairs[k2]? = some p2)
    (hu : st.unquoted = [k1, k2])
    (hs1 : nodeEq e p1.bookmark_start = true)
    (he1 : nodeEq e p1.bookmark_end = true)
    (hs2 : nodeEq e p2.bookmark_start = false)
    (he2 : nodeEq e p2.bookmark_end = true)
    (ho1 : p1.bookmark_start_offset ≤ p1.bookmark_end_offset)
    (ho2 : p1.bookmark_end_offset ≤ p2.bookmark_end_offset)
    (ho3 : p2.bookmark_end_offset ≤ md.length) :
    formatElement pairs (fuel + 1) (BsNode.tag r "span" attrs contents) st0 =
      (formatChildren pairs fuel contents st0).bind (fun x =>
        spanSplice pairs (BsNode.tag r "span" attrs contents) x.1 x.2) ∧
    spanSplice pairs e md st =
      some (insertAt p1.bookmark_start_offset openMarker
          (insertAt p1.bookmark_end_offset (closeMarker k1)
            (insertAt p2.bookmark_end_offset (closeMarker k2) md)),
        ⟨[], st.removed ++ [k2] ++ [k1]⟩) ∧
    insertAt p1.bookmark_start_offset openMarker
        (insertAt p1.bookmark_end_offset (closeMarker k1)
          (insertAt p2.bookmark_end_offset (closeMarker k2) md)) =
      md.take p1.bookmark_start_offset ++ openMarker ++
        ((md.take p1.bookmark_end_offset).drop p1.bookmark_start_offset) ++
        closeMarker k1 ++
        ((md.take p2.bookmark_end_offset).drop p1.bookmark_end_offset) ++
        closeMarker k2 ++ md.drop p2.bookmark_end_offset := by
  have hk1len : k1 < pairs.length := (List.getElem?_eq_some.mp hp1).1
  have hk2len : k2 < pairs.length := (List.getElem?_eq_some.mp hp2).1
  have hne : k1 ≠ k2 := Nat.ne_of_lt hk
  refine ⟨by simp [formatElement], ?_, ?_⟩
  · obtain ⟨u, rem⟩ := st
    dsimp only at hu
    subst hu
    unfold spanSplice
    dsimp only
    rw [if_neg (by simp [Nat.not_le.mpr hk1len, Nat.not_le.mpr hk2len])]
    have hfilter : List.filter (fun i =>
        match pairs[i]? with
        | none => false
        | some pr => nodeEq e pr.bookmark_start || nodeEq e pr.bookmark_end)
        [k1, k2] = [k1, k2] := by
      simp [List.filter, hp1, hp2, hs1, he2]
    rw [hfilter]
    have hsort : sortDesc [k1, k2] = [k2, k1] := by
      simp [sortDesc, insertDesc, Nat.not_le.mpr hk]
    rw [hsort]
    rw [processSpan, hp2]
    dsimp only
    rw [he2, hs2]
    simp only [if_true, if_false, Bool.false_eq_true]
    rw [processSpan, hp1]
    dsimp only
    rw [he1, hs1]
    simp only [if_true]
    rw [processSpan]
    have herase : ([k1, k2].erase k2).erase k1 = [] := by
      simp [List.erase_cons, hne]
    have herase2 : [k1, k2].erase k2 = [k1] := by
      simp [List.erase_cons, hne]
    simp [herase2, List.erase_cons]
  · have hXlen : p1.bookmark_end_offset ≤
        (insertAt p2.bookmark_end_offset (closeMarker k2) md).length := by
      rw [insertAt_length ho3]
      omega
    rw [insertAt_insertAt openMarker (closeMarker k1) _ ho1 hXlen]
    rw [insertAt_take_le _ _ (le_trans ho1 ho2) ho3,
      insertAt_take_le _ _ ho2 ho3,
      insertAt_drop_le _ _ ho2 ho3]
    simp [List.append_assoc]

/-- Sample span with two pending pairs sharing it as end anchor; pair 0
also starts in it. -/
def sampleSpan : BsNode := BsNode.tag 0 "span" [] [BsNode.text 9 "abcd"]

/-- Witness for the boundary-splicing theorem: both markers of pair 0
and the close marker of pair 1 land at their offsets in the rendered
text, processed in descending order. -/
theorem spanSplice_markers_witness :
    spanSplice
        [⟨sampleSpan, 1, sampleSpan, 2⟩, ⟨BsNode.tag 5 "span" [] [], 0, sampleSpan, 3⟩]
        sampleSpan "abcd".data ⟨[0, 1], []⟩ =
      some (insertAt 1 openMarker
          (insertAt 2 (closeMarker 0) (insertAt 3 (closeMarker 1) "abcd".data)),
        ⟨[], [] ++ [1] ++ [0]⟩) :=
  (spanSplice_markers
    [⟨sampleSpan, 1, sampleSpan, 2⟩, ⟨BsNode.tag 5 "span" [] [], 0, sampleSpan, 3⟩]
    0 0 [] [] ⟨[], []⟩ 0 1
    ⟨sampleSpan, 1, sampleSpan, 2⟩ ⟨BsNode.tag 5 "span" [] [], 0, sampleSpan, 3⟩
    sampleSpan "abcd".data ⟨[0, 1], []⟩
    (by decide) (by rfl) (by rfl) (by rfl) (by rfl) (by rfl)
    (by rfl) (by rfl) (by decide) (by decide) (by decide)).2.1

/-! ### The boundary-consumption invariant for C3.

Through every renderer call, the pending indices and the ghost removal
log together form a fixed multiset: a pair index moves from the pending
set to the log exactly when its end anchor is visited, and is never
duplicated or lost while the pending set stays duplicate-free. -/

/-- State evolution contract of one renderer call: assuming the pending
set is duplicate-free, the pending-plus-removed multiset is preserved
and the pending set stays duplicate-free. -/
def StStep (st out : RState) : Prop :=
  st.unquoted.Nodup →
    (List.Perm (out.unquoted ++ out.removed) (st.unquoted ++ st.removed) ∧ out.unquoted.Nodup)

theorem StStep_rfl (st : RState) : StStep st st :=
  fun h => ⟨List.Perm.refl _, h⟩

theorem StStep_trans {a b c : RState} (h1 : StStep a b) (h2 : StStep b c) :
    StStep a c := by
  intro hnd
  obtain ⟨hp1, hnd1⟩ := h1 hnd
  obtain ⟨hp2, hnd2⟩ := h2 hnd1
  exact ⟨hp2.trans hp1, hnd2⟩

theorem insertDesc_perm (i : Nat) : ∀ l : List Nat, List.Perm (insertDesc i l) (i :: l) := by
  intro l
  induction l with
  | nil => simp [insertDesc]
  | cons j rest ih =>
    rw [insertDesc]
    split_ifs with h
    · exact List.Perm.refl _
    · exact (List.Perm.cons j ih).trans (List.Perm.swap i j rest)

theorem sortDesc_perm : ∀ l : List Nat, List.Perm (sortDesc l) l := by
  intro l
  induction l with
  | nil => simp [sortDesc]
  | cons i rest ih =>
    rw [sortDesc]
    exact (insertDesc_perm i (sortDesc rest)).trans (List.Perm.cons i ih)

theorem state_step_perm {u r : List Nat} {i : Nat} (h : i ∈ u) :
    List.Perm ((u.erase i) ++ (r ++ [i])) (u ++ r) := by
  have h1 : List.Perm (u ++ r) (i :: (u.erase i ++ r)) := by
    have := (List.perm_cons_erase h).append_right r
    simpa using this
  have h2 : List.Perm (u.erase i ++ (r ++ [i])) (u.erase i ++ (i :: r)) := by
    refine List.Perm.append_left _ ?_
    exact List.perm_append_comm.trans (by simp)
  have h3 : List.Perm (u.erase i ++ (i :: r)) (i :: (u.erase i ++ r)) :=
    List.perm_middle
  exact (h2.trans h3).trans h1.symm

theorem processSpan_spec (pairs : List PairCtx) (e : BsNode) :
    ∀ (idxs : List Nat) (md : List Char) (st : RState)
    (out : List Char × RState),
    idxs.Nodup → (∀ i ∈ idxs, i ∈ st.unquoted) →
    processSpan pairs e idxs md st = some out →
    StStep st out.2 := by
  intro idxs
  induction idxs with
  | nil =>
    intro md st out _ _ h
    rw [processSpan] at h
    injection h with h
    rw [← h]
    exact StStep_rfl st
  | cons i rest ih =>
    intro md st out hnd hmem h
    rw [processSpan] at h
    cases hp : pairs[i]? with
    | none =>
      rw [hp] at h
      exact absurd h (by simp)
    | some pr =>
      rw [hp] at h
      dsimp only at h
      by_cases hend : nodeEq e pr.bookmark_end = true
      · rw [if_pos hend] at h
        have hstep := ih _ _ _ (List.nodup_cons.mp hnd).2 (fun j hj => by
          have hji : j ≠ i := by
            intro hji
            subst hji
            exact (List.nodup_cons.mp hnd).1 hj
          exact (List.mem_erase_of_ne hji).mpr
            (hmem j (List.mem_cons_of_mem _ hj))) h
        intro hnodup
        have hi : i ∈ st.unquoted := hmem i (List.mem_cons_self _ _)
        obtain ⟨hperm, hnd2⟩ := hstep (hnodup.erase i)
        refine ⟨hperm.trans ?_, hnd2⟩
        exact state_step_perm hi
      · rw [if_neg hend] at h
        exact ih _ _ _ (List.nodup_cons.mp hnd).2
          (fun j hj => hmem j (List.mem_cons_of_mem _ hj)) h

theorem spanSplice_spec (pairs : List PairCtx) (e : BsNode) (md : List Char)
    (st : RState) (out : List Char × RState)
    (h : spanSplice pairs e md st = some out) : StStep st out.2 := by
  unfold spanSplice at h
  split_ifs at h with hguard
  intro hnd
  have hfilt := hnd.filter (fun i =>
    match pairs[i]? with
    | none => false
    | some pr => nodeEq e pr.bookmark_start || nodeEq e pr.bookmark_end)
  have hsortnd := ((sortDesc_perm _).nodup_iff).mpr hfilt
  refine processSpan_spec pairs e _ md st out hsortnd ?_ h hnd
  intro j hj
  have hj2 := (sortDesc_perm _).mem_iff.mp hj
  exact List.mem_of_mem_filter hj2

/-- Every renderer entry point satisfies the state-evolution contract:
the pending-plus-removed multiset is preserved by any successful call. -/
theorem renderStep (pairs : List PairCtx) : ∀ fuel : Nat,
    (∀ e st out, formatElement pairs fuel e st = some out → StStep st out.2) ∧
    (∀ l st out, formatChildren pairs fuel l st = some out → StStep st out.2) ∧
    (∀ l st out, formatTable pairs fuel l st = some out → StStep st out.2) ∧
    (∀ l st out, formatTrs pairs fuel l st = some out → StStep st out.2.2) ∧
    (∀ l st out, formatCells pairs fuel l st = some out → StStep st out.2.2) ∧
    (∀ l st out, formatContainers pairs fuel l st = some out → StStep st out.2) := by
  intro fuel
  induction fuel with
  | zero =>
    refine ⟨?_, ?_, ?_, ?_, ?_, ?_⟩ <;> intro a st out h <;>
      simp only [formatElement, formatChildren, formatTable, formatTrs,
        formatCells, formatContainers] at h <;>
      exact Option.noConfusion h
  | succ fuel ih =>
    obtain ⟨ihE, ihC, ihT, ihR, ihL, ihK⟩ := ih
    refine ⟨?_, ?_, ?_, ?_, ?_, ?_⟩
    · intro e st out h
      cases e with
      | text r s =>
        simp only [formatElement] at h
        exact Option.noConfusion h
      | tag r nm attrs contents =>
        simp only [formatElement] at h
        split_ifs at h with h1 h2 h3 h4 h5 h6 h7 h8 h9
        · obtain ⟨x, hx, hfx⟩ := Option.map_eq_some'.mp h
          have hout : out.2 = x.2 := by rw [← hfx]
          rw [hout]
          exact ihC _ _ _ hx
        · obtain ⟨x, hx, hfx⟩ := Option.map_eq_some'.mp h
          have hout : out.2 = x.2 := by rw [← hfx]
          rw [hout]
          exact ihC _ _ _ hx
        · cases hl : attrLookup attrs "href" with
          | none =>
            rw [hl] at h
            dsimp only at h
            injection h with h
            rw [← h]
            exact StStep_rfl st
          | some href =>
            rw [hl] at h
            dsimp only at h
            obtain ⟨x, hx, hfx⟩ := Option.map_eq_some'.mp h
            have hout : out.2 = x.2 := by rw [← hfx]
            rw [hout]
            exact ihC _ _ _ hx
        · exact ihC _ _ _ h
        · exact ihT _ _ _ h
        · obtain ⟨x, hx, hsp⟩ := Option.bind_eq_some.mp h
          exact StStep_trans (ihC _ _ _ hx) (spanSplice_spec _ _ _ _ _ hsp)
        · exact ihC _ _ _ h
        · obtain ⟨x, hx, hfx⟩ := Option.map_eq_some'.mp h
          have hout : out.2 = x.2 := by rw [← hfx]
          rw [hout]
          exact ihC _ _ _ hx
    · intro l st out h
      cases l with
      | nil =>
        simp only [formatChildren] at h
        injection h with h
        rw [← h]
        exact StStep_rfl st
      | cons x rest =>
        cases x with
        | text r s =>
          simp only [formatChildren] at h
          obtain ⟨y, hy, hfy⟩ := Option.map_eq_some'.mp h
          have hout : out.2 = y.2 := by rw [← hfy]
          rw [hout]
          exact ihC _ _ _ hy
        | tag r n a c =>
          simp only [formatChildren] at h
          obtain ⟨x1, hx1, h2⟩ := Option.bind_eq_some.mp h
          obtain ⟨y, hy, hfy⟩ := Option.map_eq_some'.mp h2
          have hout : out.2 = y.2 := by rw [← hfy]
          rw [hout]
          exact StStep_trans (ihE _ _ _ hx1) (ihC _ _ _ hy)
    · intro l st out h
      simp only [formatTable] at h
      split at h
      · obtain ⟨y, hy, hmap⟩ := Option.bind_eq_some.mp h
        obtain ⟨md', hmd, heq⟩ := Option.map_eq_some'.mp hmap
        have hout : out.2 = y.2.2 := by rw [← heq]
        rw [hout]
        exact ihR _ _ _ hy
      · simp at h
    · intro l st out h
      cases l with
      | nil =>
        simp only [formatTrs] at h
        injection h with h
        rw [← h]
        exact StStep_rfl st
      | cons tr rest =>
        simp only [formatTrs] at h
        obtain ⟨c, hc, h2⟩ := Option.bind_eq_some.mp h
        obtain ⟨t, ht, hft⟩ := Option.map_eq_some'.mp h2
        have hout : out.2.2 = t.2.2 := by rw [← hft]
        rw [hout]
        exact StStep_trans (ihL _ _ _ hc) (ihR _ _ _ ht)
    · intro l st out h
      cases l with
      | nil =>
        simp only [formatCells] at h
        injection h with h
        rw [← h]
        exact StStep_rfl st
      | cons x rest =>
        cases x with
        | text r s =>
          simp only [formatCells] at h
          split_ifs at h with hws
          exact ihL _ _ _ h
        | tag r n a c =>
          simp only [formatCells] at h
          split_ifs at h with hth htd
          · obtain ⟨x1, hx1, h2⟩ := Option.bind_eq_some.mp h
            obtain ⟨o, ho, hfo⟩ := Option.map_eq_some'.mp h2
            have hout : out.2.2 = o.2.2 := by rw [← hfo]
            rw [hout]
            exact StStep_trans (ihC _ _ _ hx1) (ihL _ _ _ ho)
          · obtain ⟨x1, hx1, h2⟩ := Option.bind_eq_some.mp h
            obtain ⟨o, ho, hfo⟩ := Option.map_eq_some'.mp h2
            have hout : out.2.2 = o.2.2 := by rw [← hfo]
            rw [hout]
            exact StStep_trans (ihC _ _ _ hx1) (ihL _ _ _ ho)
    · intro l st out h
      cases l with
      | nil =>
        simp only [formatContainers] at h
        injection h with h
        rw [← h]
        exact StStep_rfl st
      | cons e rest =>
        simp only [formatContainers] at h
        obtain ⟨x1, hx1, h2⟩ := Option.bind_eq_some.mp h
        obtain ⟨y, hy, hfy⟩ := Option.map_eq_some'.mp h2
        have hout : out.2 = y.2 := by rw [← hfy]
        rw [hout]
        exact StStep_trans (ihE _ _ _ hx1) (ihK _ _ _ hy)

/-- C3: boundary-consumption in format_args.  Whenever format_args
succeeds (the assert on the leftover set passes), the pending set is
empty, and the removal log — one entry per consumption of a pair from
the pending set — is a permutation of all pair indices with each index
removed exactly once. -/
theorem formatArgs_boundary (pairs : List PairCtx) (fuel : Nat)
    (containers : List BsNode) (mds : List (List Char)) (st : RState)
    (h : formatArgs pairs fuel containers = some (mds, st)) :
    st.unquoted = [] ∧ List.Perm st.removed (List.range pairs.length) ∧
    ∀ i, i < pairs.length → st.removed.count i = 1 := by
  unfold formatArgs at h
  cases hfc : formatContainers pairs fuel containers (initState pairs) with
  | none =>
    rw [hfc] at h
    exact Option.noConfusion h
  | some x =>
    rw [hfc] at h
    simp only [Option.some_bind] at h
    split_ifs at h with hempty
    injection h with h
    subst h
    have hstep := (renderStep pairs fuel).2.2.2.2.2 containers (initState pairs)
      (mds, st) hfc
    have hnodup : (initState pairs).unquoted.Nodup := List.nodup_range _
    obtain ⟨hperm, _⟩ := hstep hnodup
    refine ⟨hempty, ?_⟩
    rw [show ((mds, st) : List (List Char) × RState).2 = st from rfl] at hperm hempty
    rw [hempty] at hperm
    simp only [List.nil_append, initState, List.append_nil] at hperm
    refine ⟨hperm, ?_⟩
    intro i hi
    have hmem : i ∈ st.removed := hperm.mem_iff.mpr (List.mem_range.mpr hi)
    have hnd : st.removed.Nodup := (hperm.nodup_iff).mpr (List.nodup_range _)
    exact List.count_eq_one_of_mem hnd hmem

/-- The single-pair group used by the boundary-consumption witness. -/
def samplePairSpan : BsNode := BsNode.tag 0 "span" [] [BsNode.text 1 "ab"]

/-- Witness for the boundary-consumption theorem: one pair anchored in
the single rendered container is consumed exactly once and the pending
set ends empty. -/
theorem formatArgs_boundary_witness :
    ([] : List Nat) = [] ∧
    List.Perm [0] (List.range [(⟨samplePairSpan, 0, samplePairSpan, 1⟩ : PairCtx)].length) ∧
    ∀ i, i < [(⟨samplePairSpan, 0, samplePairSpan, 1⟩ : PairCtx)].length →
      ([0] : List Nat).count i = 1 :=
  formatArgs_boundary [⟨samplePairSpan, 0, samplePairSpan, 1⟩] 10 [samplePairSpan]
    ["<u><b>a</b></u><sup>[IK.1]</sup>b".data] ⟨[], [0]⟩ (by decide)

end IKobo